import Mathlib

/-!
Verification development for the line-oriented C dataflow / TTA-graph analyzer
(`C_SDE.py`).  The Python source is shallowly embedded below: per-line records,
the variable table, the dependency map, reaching definitions, the WRITE/READ/KILL
operation sequence, and the control-flow block partitioner with its arc builder.
Python regular-expression searches are embedded as hand-rolled character scanners
with the same leftmost-match semantics; Python string indexing and slicing are
mirrored on `List Char`.  Line numbers are 1-based throughout, as in the source.
-/

/-! ### Character and string helpers (Python semantics) -/

/-- Python `str.strip` whitespace set (ASCII). -/
def pyIsWs (c : Char) : Bool :=
  c == ' ' || c == '\t' || c == '\n' || c == Char.ofNat 13 || c == Char.ofNat 11 || c == Char.ofNat 12

/-- Regex word character `[a-zA-Z0-9_]`. -/
def isWordC (c : Char) : Bool :=
  (97 ≤ c.toNat && c.toNat ≤ 122) || (65 ≤ c.toNat && c.toNat ≤ 90) ||
  (48 ≤ c.toNat && c.toNat ≤ 57) || c == '_'

/-- Identifier start `[a-zA-Z_]`. -/
def isIdentStartC (c : Char) : Bool :=
  (97 ≤ c.toNat && c.toNat ≤ 122) || (65 ≤ c.toNat && c.toNat ≤ 90) || c == '_'

def isDigitC (c : Char) : Bool := 48 ≤ c.toNat && c.toNat ≤ 57

/-- Python `str.strip()` on the character list. -/
def pyStripL (cs : List Char) : List Char :=
  ((cs.dropWhile pyIsWs).reverse.dropWhile pyIsWs).reverse

def pyStrip (s : String) : String := ⟨pyStripL s.data⟩

/-- Match a literal character list at the head; return the remainder on success. -/
def litMatch : List Char → List Char → Option (List Char)
  | [], t => some t
  | _ :: _, [] => none
  | p :: ps, c :: cs => if c == p then litMatch ps cs else none

/-- Does `pat` occur at the head of `t`? -/
def headMatch (pat t : List Char) : Bool := (litMatch pat t).isSome

/-- Python `pat in t` (substring containment), for non-empty `pat`. -/
def containsLC : List Char → List Char → Bool
  | t, pat =>
    match t with
    | [] => headMatch pat []
    | _ :: cs => headMatch pat t || containsLC cs pat

def containsSub (s pat : String) : Bool := containsLC s.data pat.data

/-- Python `s.startswith(pat)`. -/
def pyStarts (s pat : String) : Bool := headMatch pat.data s.data

/-- Skip regex `\s*`. -/
def dropWsL (cs : List Char) : List Char := cs.dropWhile pyIsWs

/-- Take a regex identifier `[a-zA-Z_][a-zA-Z0-9_]*` at the head. -/
def takeIdentL : List Char → Option (List Char × List Char)
  | [] => none
  | c :: cs =>
    if isIdentStartC c then some (c :: cs.takeWhile isWordC, cs.dropWhile isWordC) else none

/-- Regex word boundary `\b` given the previous character. -/
def atBoundary (prev : Option Char) : Bool :=
  match prev with
  | none => true
  | some c => !isWordC c

/-- First index of a character, Python `str.find`. -/
def idxOfC (cs : List Char) (c : Char) : Option Nat :=
  cs.findIdx? (fun x => x == c)

/-- Last index of a character, Python `str.rfind`. -/
def rIdxOfC (cs : List Char) (c : Char) : Option Nat :=
  match idxOfC cs.reverse c with
  | none => none
  | some j => some (cs.length - 1 - j)

/-- Python slice `cs[a:b]` for natural bounds. -/
def sliceL (cs : List Char) (a b : Nat) : List Char := (cs.drop a).take (b - a)

/-- Python `s.split(sep, 1)[1]` given that `sep` occurs; `[]` otherwise. -/
def afterFirstSub : List Char → List Char → List Char
  | t, pat =>
    match t with
    | [] => []
    | _ :: cs =>
      match litMatch pat t with
      | some rest => rest
      | none => afterFirstSub cs pat

/-- Count occurrences of a character. -/
def countC (cs : List Char) (c : Char) : Nat := cs.countP (fun x => x == c)

def obraceC : Char := Char.ofNat 123
def cbraceC : Char := Char.ofNat 125
def obraceS : String := "\x7b"
def cbraceS : String := "\x7d"

/-- Python `list(set(..))`, embedded as first-occurrence deduplication
(the claims are all set-level, so the iteration order of the Python set
is irrelevant). -/
def pyDedup (xs : List String) : List String :=
  xs.foldl (fun acc x => if acc.contains x then acc else acc ++ [x]) []

/-! ### Data model (dict-shaped records from the source) -/

/-- One entry of `self.line_analysis`: `{'reads': .., 'writes': .., 'operation': ..}`. -/
structure LineRec where
  reads : List String
  writes : List String
  operation : String
deriving DecidableEq

/-- One value of `self.variables`: `{'definitions': [(line, details)], 'uses': [(line, details)]}`. -/
structure VarInfo where
  definitions : List (Nat × String)
  uses : List (Nat × String)
deriving DecidableEq

inductive OpKind
  | WRITE
  | READ
  | KILL
deriving DecidableEq

/-- One element of the operation linked list built by `build_operation_sequence`;
`next = none` is the terminal sentinel (`None` in the source). -/
structure Operation where
  operation_id : Nat
  variable_name : String
  operation : OpKind
  line_number : Nat
  details : String
  next : Option Nat
deriving DecidableEq

/-- A block produced by `TTAGraphAnalyzer._create_block`. -/
structure Block where
  block_id : Nat
  node_type : String
  start_line : Nat
  end_line : Nat
  lines : List String
  code_preview : String
  operation_sequence : List Operation
deriving DecidableEq

instance : Inhabited Block := ⟨⟨0, "", 0, 0, [], "", []⟩⟩

/-- An arc produced by `create_control_flow_arcs`; `fromId`/`toId` embed the
source's `from`/`to` keys. -/
structure Arc where
  fromId : Nat
  toId : Nat
  arc_type : String
  description : String
deriving DecidableEq

/-! ### Operation sequence builder (`DataflowAnalyzer.build_operation_sequence`) -/

def kill_details (v : String) (prev : Nat) : String :=
  "Variable \x27" ++ v ++ "\x27 redefined, killing previous definition from line " ++ toString prev

def free_details (v : String) : String :=
  "Memory freed for variable \x27" ++ v ++ "\x27"

/-- `variable_definitions` dict: lookup. -/
def lookupD (defs : List (String × Nat)) (v : String) : Option Nat :=
  (defs.find? (fun p => p.1 == v)).map (fun p => p.2)

/-- `variable_definitions` dict: update/overwrite. -/
def updateD (defs : List (String × Nat)) (v : String) (ln : Nat) : List (String × Nat) :=
  (v, ln) :: defs.filter (fun p => !(p.1 == v))

/-- Scanner for `re.search(r'free\s*\(\s*([a-zA-Z_][a-zA-Z0-9_]*)\s*\)', ..)`. -/
def freeScanGo : List Char → Option (List Char)
  | [] => none
  | c :: cs =>
    (match litMatch "free".data (c :: cs) with
     | some r1 =>
       match dropWsL r1 with
       | '(' :: r2 =>
         match takeIdentL (dropWsL r2) with
         | some (id, r3) =>
           match dropWsL r3 with
           | ')' :: _ => some id
           | _ => none
         | none => none
       | _ => none
     | none => none).orElse (fun _ => freeScanGo cs)

/-- The explicit-deallocation check in `build_operation_sequence`:
`line_num <= len(self.lines) and 'free(' in self.lines[line_num - 1]` followed
by the `free(..)` regex (line numbers are 1-based in every produced record). -/
def freeTarget (lines : List String) (ln : Nat) : Option String :=
  if ln ≤ lines.length then
    match lines.get? (ln - 1) with
    | some l => if containsSub l "free(" then (freeScanGo l.data).map (fun cs => ⟨cs⟩) else none
    | none => none
  else none

/-- The per-line WRITE loop: a redefinition first emits a KILL of the previous
definition, then the WRITE; the definition map is updated to the current line. -/
def emitWrites (ln : Nat) (lbl : String) :
    List String → List (String × Nat) → Nat → List Operation × List (String × Nat) × Nat
  | [], defs, k => ([], defs, k)
  | v :: vs, defs, k =>
    match lookupD defs v with
    | some prev =>
      let rest := emitWrites ln lbl vs (updateD defs v ln) (k + 2)
      (⟨k, v, OpKind.KILL, ln, kill_details v prev, some (k + 1)⟩ ::
         ⟨k + 1, v, OpKind.WRITE, ln, lbl, some (k + 2)⟩ :: rest.1, rest.2)
    | none =>
      let rest := emitWrites ln lbl vs (updateD defs v ln) (k + 1)
      (⟨k, v, OpKind.WRITE, ln, lbl, some (k + 1)⟩ :: rest.1, rest.2)

/-- The per-line READ loop. -/
def emitReads (ln : Nat) (lbl : String) : List String → Nat → List Operation × Nat
  | [], k => ([], k)
  | v :: vs, k =>
    let rest := emitReads ln lbl vs (k + 1)
    (⟨k, v, OpKind.READ, ln, lbl, some (k + 1)⟩ :: rest.1, rest.2)

/-- All operations emitted for one line: writes (with redefinition KILLs),
then reads, then the explicit-deallocation KILL when `free(..)` occurs. -/
def lineBatch (lines : List String) (ln : Nat) (r : LineRec)
    (defs : List (String × Nat)) (k : Nat) :
    List Operation × List (String × Nat) × Nat :=
  let w := emitWrites ln r.operation r.writes defs k
  let rd := emitReads ln r.operation r.reads w.2.2
  match freeTarget lines ln with
  | some v =>
    (w.1 ++ rd.1 ++ [⟨rd.2, v, OpKind.KILL, ln, free_details v, some (rd.2 + 1)⟩],
     w.2.1, rd.2 + 1)
  | none => (w.1 ++ rd.1, w.2.1, rd.2)

/-- Fold over the line records (the source iterates `sorted(self.line_analysis.keys())`;
`line_analysis` is built in ascending line order, so the sorted key list is the
record list itself). -/
def opsGo (lines : List String) :
    List (Nat × LineRec) → List (String × Nat) → Nat → List Operation × List (String × Nat) × Nat
  | [], defs, k => ([], defs, k)
  | (ln, r) :: rest, defs, k =>
    let b := lineBatch lines ln r defs k
    let t := opsGo lines rest b.2.1 b.2.2
    (b.1 ++ t.1, t.2)

/-- `operations[-1]["next"] = None`. -/
def patchLast : List Operation → List Operation
  | [] => []
  | [o] => [{ o with next := none }]
  | o :: rest => o :: patchLast rest

/-- `DataflowAnalyzer.build_operation_sequence`. -/
def build_operation_sequence (la : List (Nat × LineRec)) (lines : List String) : List Operation :=
  patchLast (opsGo lines la [] 0).1

/-! ### Dependency map (`DataflowAnalyzer.build_dependencies`) -/

/-- `self.dependencies[w]`, defaulting to `[]` when no entry exists
(dict entries have unique keys, so first-match lookup models the dict). -/
def getDep : List (String × List String) → String → List String
  | [], _ => []
  | p :: rest, w => if p.1 = w then p.2 else getDep rest w

/-- In-place mutation of the entry for `w`. -/
def setDep : List (String × List String) → String → List String → List (String × List String)
  | [], _, _ => []
  | p :: rest, w, l => if p.1 = w then (p.1, l) :: rest else p :: setDep rest w l

/-- The dict-membership test `written_var in self.dependencies`. -/
def hasKeyB : List (String × List String) → String → Bool
  | [], _ => false
  | p :: rest, w => p.1 == w || hasKeyB rest w

/-- `if written_var not in self.dependencies: self.dependencies[written_var] = []`. -/
def ensureDep (deps : List (String × List String)) (w : String) :
    List (String × List String) :=
  if hasKeyB deps w then deps else deps ++ [(w, [])]

/-- The read loop of `build_dependencies` for one written variable. -/
def addDepReads (w : String) : List String → List (String × List String) → List (String × List String)
  | [], deps => deps
  | rv :: rvs, deps =>
    addDepReads w rvs
      (if rv ≠ w ∧ rv ∉ getDep deps w then setDep deps w (getDep deps w ++ [rv]) else deps)

/-- The write loop of `build_dependencies` for one line record. -/
def addDepWrites (a : LineRec) : List String → List (String × List String) → List (String × List String)
  | [], deps => deps
  | w :: ws, deps => addDepWrites a ws (addDepReads w a.reads (ensureDep deps w))

/-- `DataflowAnalyzer.build_dependencies` over the line-analysis table. -/
def build_dependencies (la : List (Nat × LineRec)) : List (String × List String) :=
  la.foldl (fun deps p => addDepWrites p.2 p.2.writes deps) []

/-! ### Reaching definitions (`DataflowAnalyzer.compute_reaching_definitions`) -/

/-- The inner scan for the latest definition strictly before `ln`
(`if def_line < line_num: if latest_def is None or def_line > latest_def: ..`). -/
def latestDefScan (ln : Nat) : List (Nat × String) → Option Nat → Option Nat
  | [], acc => acc
  | d :: rest, none => latestDefScan ln rest (if d.1 < ln then some d.1 else none)
  | d :: rest, some cur =>
    latestDefScan ln rest
      (if d.1 < ln then (if d.1 > cur then some d.1 else some cur) else some cur)

/-- The entry contributed by one read variable: Python appends
`f"Line {latest_def} (defines {read_var})"` when `read_var` is in the variable
table and `latest_def` is truthy (`None` and `0` are both falsy). -/
def reachEntry (vt : List (String × VarInfo)) (ln : Nat) (v : String) : Option String :=
  match vt.find? (fun p => p.1 == v) with
  | none => none
  | some p =>
    match latestDefScan ln p.2.definitions none with
    | some d =>
      if d ≠ 0 then some ("Line " ++ toString d ++ " (defines " ++ v ++ ")") else none
    | none => none

/-- `DataflowAnalyzer.compute_reaching_definitions`. -/
def compute_reaching_definitions (vt : List (String × VarInfo))
    (la : List (Nat × LineRec)) : List (Nat × List String) :=
  la.map (fun p => (p.1, p.2.reads.filterMap (reachEntry vt p.1)))

/-- Spec side: `v` has some recorded definition strictly before `ln`. -/
def HasDefBefore (vt : List (String × VarInfo)) (v : String) (ln : Nat) : Prop :=
  ∃ p, vt.find? (fun q => q.1 == v) = some p ∧
    ∃ e ∈ p.2.definitions.map Prod.fst, e < ln

/-- Spec side: `d` is the greatest recorded definition line of `v` strictly
below `ln` (the nearest preceding write). -/
def IsNearestDefBefore (vt : List (String × VarInfo)) (v : String) (ln d : Nat) : Prop :=
  ∃ p, vt.find? (fun q => q.1 == v) = some p ∧
    d ∈ p.2.definitions.map Prod.fst ∧ d < ln ∧
    ∀ e ∈ p.2.definitions.map Prod.fst, e < ln → e ≤ d

/-! ### Regex scanners for the statement classifier (`analyze_variables`)

Each Python `re.search`/`re.finditer` is embedded as a leftmost-match character
scanner.  The keyword alternations are prefix-free and every subpattern has a
disjoint follow set, so greedy scanning without backtracking is equivalent to
the regex engine's behaviour. -/

def mkS (cs : List Char) : String := ⟨cs⟩

def typeKws : List String := ["int", "char", "double", "float", "long", "short", "void"]

/-- Try each literal alternative in order; return the matched keyword and the rest. -/
def matchOneOfK : List String → List Char → Option (String × List Char)
  | [], _ => none
  | k :: ks, cs =>
    match litMatch k.data cs with
    | some r => some (k, r)
    | none => matchOneOfK ks cs

def matchOneOf (kws : List String) (cs : List Char) : Option (List Char) :=
  (matchOneOfK kws cs).map (fun p => p.2)

/-- Regex `\s+`. -/
def requireWs1 : List Char → Option (List Char)
  | [] => none
  | c :: r => if pyIsWs c then some (dropWsL r) else none

/-- Regex `[^c]*c`: drop to the first `c` and past it. -/
def afterClose (c : Char) (cs : List Char) : Option (List Char) :=
  match cs.dropWhile (fun x => !(x == c)) with
  | x :: r => if x == c then some r else none
  | [] => none

/-- Leftmost-match driver without a word boundary. -/
def searchAny {α : Type} (attempt : List Char → Option α) : List Char → Option α
  | [] => attempt []
  | c :: cs =>
    match attempt (c :: cs) with
    | some r => some r
    | none => searchAny attempt cs

/-- Leftmost-match driver requiring a word boundary (`\b`) at the match start. -/
def searchBd {α : Type} (attempt : List Char → Option α) : Option Char → List Char → Option α
  | prev, [] => if atBoundary prev then attempt [] else none
  | prev, c :: cs =>
    match (if atBoundary prev then attempt (c :: cs) else none) with
    | some r => some r
    | none => searchBd attempt (some c) cs

/-- `\b(int|char|double|float|long|short|void)\s+[a-zA-Z_]\w*\s*\([^)]*\)\s*{` at a position. -/
def funcSigAt (cs : List Char) : Option Unit := do
  let r1 ← matchOneOf typeKws cs
  let r2 ← requireWs1 r1
  let (_, r3) ← takeIdentL r2
  match dropWsL r3 with
  | '(' :: r5 =>
    let r6 ← afterClose ')' r5
    match dropWsL r6 with
    | c :: _ => if c == obraceC then some () else none
    | [] => none
  | _ => none

def ruleFuncDef (l : String) : Bool := (searchBd funcSigAt none l.data).isSome

/-- `\*\s*([a-zA-Z_]\w*)\s*=` at a position (no boundary). -/
def derefAssignAt : List Char → Option (List Char)
  | '*' :: r1 =>
    match takeIdentL (dropWsL r1) with
    | some (nm, r2) =>
      match dropWsL r2 with
      | '=' :: _ => some nm
      | _ => none
    | none => none
  | _ => none

/-- `\b(int|char|double|float|long|short|void)\s*\*` at a position. -/
def typePtrAt (cs : List Char) : Option Unit := do
  let r1 ← matchOneOf typeKws cs
  match dropWsL r1 with
  | '*' :: _ => some ()
  | _ => none

/-- Rule 2 guard: pointer-dereference assignment, rejecting `==` and
pointer-type declarations; returns the dereferenced pointer name. -/
def ruleDerefGuard (l : String) : Option String :=
  if !containsSub l "==" && !(searchBd typePtrAt none l.data).isSome then
    (searchAny derefAssignAt l.data).map mkS
  else none

/-- `\b(type)\s*\*?\s*([a-zA-Z_]\w*)\s*=` at a position; returns group 2. -/
def declInitAt (cs : List Char) : Option (List Char) := do
  let r1 ← matchOneOf typeKws cs
  let r2 := dropWsL r1
  let r3 := match r2 with
    | '*' :: t => dropWsL t
    | _ => r2
  let (nm, r4) ← takeIdentL r3
  match dropWsL r4 with
  | '=' :: _ => some nm
  | _ => none

def ruleDeclInit (l : String) : Option String := (searchBd declInitAt none l.data).map mkS

/-- The `[a-zA-Z_]\w*\s*(?:,|;)` tail of the no-initializer declaration pattern. -/
def declTailAt (cs : List Char) : Option Unit := do
  let (_, r4) ← takeIdentL cs
  match dropWsL r4 with
  | c :: _ => if c == ',' || c == ';' then some () else none
  | [] => none

/-- `\b(type)\s*\*?\s+([a-zA-Z_]\w*)\s*(?:,|;)` at a position. -/
def declNoInitAt (cs : List Char) : Option Unit := do
  let r1 ← matchOneOf typeKws cs
  let n1 := (r1.takeWhile pyIsWs).length
  let r2 := r1.dropWhile pyIsWs
  match r2 with
  | '*' :: t => do
    let r3 ← requireWs1 t
    declTailAt r3
  | _ => if 1 ≤ n1 then declTailAt r2 else none

def ruleDeclNoInit (l : String) : Bool := (searchBd declNoInitAt none l.data).isSome

/-- `\b(type)\s*(\*?)`: returns pointer-ness and the text after the match end
(`remaining = line[type_match.end():]`). -/
def typeStarAt (cs : List Char) : Option (Bool × List Char) := do
  let r1 ← matchOneOf typeKws cs
  let r2 := dropWsL r1
  match r2 with
  | '*' :: t => some (true, t)
  | _ => some (false, r2)

/-- `re.findall(r'([a-zA-Z_]\w*)\s*(?:[,;])', remaining)`, non-overlapping. -/
def identCommaFindAll : Nat → List Char → List (List Char)
  | 0, _ => []
  | _ + 1, [] => []
  | fuel + 1, c :: cs =>
    match (do
      let (nm, r2) ← takeIdentL (c :: cs)
      match dropWsL r2 with
      | x :: r3 => if x == ',' || x == ';' then some (nm, r3) else none
      | [] => none : Option (List Char × List Char)) with
    | some (nm, r3) => nm :: identCommaFindAll fuel r3
    | none => identCommaFindAll fuel cs

/-- `([a-zA-Z_]\w*)\s*=` at a position (used with and without `\b`). -/
def identEqAt (cs : List Char) : Option (List Char) := do
  let (nm, r2) ← takeIdentL cs
  match dropWsL r2 with
  | '=' :: _ => some nm
  | _ => none

/-- Rule 5 guard: `\b(ident)\s*=` with no `==` and no `*` anywhere in the line. -/
def rulePlainAssign (l : String) : Option String :=
  if !containsSub l "==" && !containsSub l "*" then
    (searchBd identEqAt none l.data).map mkS
  else none

/-- `\b(kw…)\s*\(` at a position; returns the matched keyword. -/
def kwParenAt (kws : List String) (cs : List Char) : Option String := do
  let (k, r1) ← matchOneOfK kws cs
  match dropWsL r1 with
  | '(' :: _ => some k
  | _ => none

def ruleCtrl (l : String) : Option String := searchBd (kwParenAt ["if", "while", "for"]) none l.data

/-- `([a-zA-Z_]\w*)\s*\(` at a position (no boundary). -/
def callAt (cs : List Char) : Option (List Char) := do
  let (nm, r1) ← takeIdentL cs
  match dropWsL r1 with
  | '(' :: _ => some nm
  | _ => none

def ruleCall (l : String) : Option String := (searchAny callAt l.data).map mkS

def ruleReturn (l : String) : Bool := containsSub l "return"

/-- `\b(kw)\b` with trailing boundary, for the block-run stop rule. -/
def kwWordAt (kws : List String) (cs : List Char) : Option Unit := do
  let (_, r1) ← matchOneOfK kws cs
  match r1 with
  | [] => some ()
  | c :: _ => if isWordC c then none else some ()

/-! ### Expression variable extractor (`extract_variables_from_expression`) -/

def cKeywords : List String :=
  ["int", "char", "double", "float", "long", "short", "void", "signed", "unsigned",
   "if", "else", "while", "for", "do", "switch", "case", "default", "break", "continue",
   "return", "sizeof", "typedef", "struct", "union", "enum", "static", "extern", "const",
   "volatile", "register", "auto", "inline", "restrict", "NULL"]

def argExcl : List String := ["int", "char", "double", "float", "NULL", "sizeof"]

/-- Cut the text at the first occurrence of `pat` (comment stripping). -/
def cutAtSub : List Char → List Char → List Char
  | [], _ => []
  | c :: cs, pat => if headMatch pat (c :: cs) then [] else c :: cutAtSub cs pat

/-- `re.finditer(r'\*\s*([a-zA-Z_]\w*)', ..)`, non-overlapping match names. -/
def derefFindAll : Nat → List Char → List (List Char)
  | 0, _ => []
  | _ + 1, [] => []
  | fuel + 1, c :: cs =>
    if c == '*' then
      match takeIdentL (dropWsL cs) with
      | some (nm, r) => nm :: derefFindAll fuel r
      | none => derefFindAll fuel cs
    else derefFindAll fuel cs

/-- `re.search(r'\*\s*([a-zA-Z_]\w*)', ..)` at a position. -/
def derefAt : List Char → Option (List Char)
  | '*' :: r1 => (takeIdentL (dropWsL r1)).map (fun p => p.1)
  | _ => none

/-- `re.finditer(r'\b[a-zA-Z_]\w*\s*\(([^)]*)\)', ..)`: the argument texts. -/
def callsFindAll : Nat → Option Char → List Char → List (List Char)
  | 0, _, _ => []
  | _ + 1, _, [] => []
  | fuel + 1, prev, c :: cs =>
    match (if atBoundary prev then
      (do
        let (_, r1) ← takeIdentL (c :: cs)
        match dropWsL r1 with
        | '(' :: r2 =>
          let args := r2.takeWhile (fun x => !(x == ')'))
          match r2.dropWhile (fun x => !(x == ')')) with
          | ')' :: r3 => some (args, r3)
          | _ => none
        | _ => none : Option (List Char × List Char))
      else none) with
    | some (args, r3) => args :: callsFindAll fuel (some ')') r3
    | none => callsFindAll fuel (some c) cs

def splitOnChar (c : Char) : List Char → List (List Char)
  | [] => [[]]
  | x :: xs =>
    if x == c then [] :: splitOnChar c xs
    else
      match splitOnChar c xs with
      | h :: t => (x :: h) :: t
      | [] => [[x]]

/-- Maximal word-character runs; `re.findall(r'\b([a-zA-Z_]\w*)\b', ..)` keeps
exactly the runs whose first character is a letter or underscore. -/
def wordRuns : Nat → List Char → List (List Char)
  | 0, _ => []
  | _ + 1, [] => []
  | fuel + 1, c :: cs =>
    if isWordC c then
      (c :: cs.takeWhile isWordC) :: wordRuns fuel (cs.dropWhile isWordC)
    else wordRuns fuel cs

def identsIn (cs : List Char) : List (List Char) :=
  (wordRuns (cs.length + 1) cs).filter (fun r =>
    match r with
    | c :: _ => isIdentStartC c
    | [] => false)

/-- `re.finditer(r'([a-zA-Z_]\w*)\s*\[([^\]]+)\]', ..)`: (array name, index text). -/
def arrayFindAll : Nat → List Char → List (List Char × List Char)
  | 0, _ => []
  | _ + 1, [] => []
  | fuel + 1, c :: cs =>
    match (do
      let (nm, r1) ← takeIdentL (c :: cs)
      match dropWsL r1 with
      | '[' :: r2 =>
        let idx := r2.takeWhile (fun x => !(x == ']'))
        if idx.isEmpty then none
        else
          match r2.dropWhile (fun x => !(x == ']')) with
          | ']' :: r3 => some (nm, idx, r3)
          | _ => none
      | _ => none : Option (List Char × List Char × List Char)) with
    | some (nm, idx, r3) => (nm, idx) :: arrayFindAll fuel r3
    | none => arrayFindAll fuel cs

/-- `re.sub(r'q[^q]*q', '', ..)` for string/char literals. -/
def subQuoted (q : Char) : Nat → List Char → List Char
  | 0, cs => cs
  | _ + 1, [] => []
  | fuel + 1, c :: cs =>
    if c == q then
      match idxOfC cs q with
      | some j => subQuoted q fuel (cs.drop (j + 1))
      | none => c :: subQuoted q fuel cs
    else c :: subQuoted q fuel cs

/-- `re.sub(r'\b\d+\b', '', ..)`: removes maximal word runs that are all digits. -/
def subNumRuns : Nat → List Char → List Char
  | 0, cs => cs
  | _ + 1, [] => []
  | fuel + 1, c :: cs =>
    if isWordC c then
      (if (c :: cs.takeWhile isWordC).all isDigitC then [] else c :: cs.takeWhile isWordC) ++
        subNumRuns fuel (cs.dropWhile isWordC)
    else c :: subNumRuns fuel cs

/-- `re.sub(r'\b[a-zA-Z_]\w*\s*\([^)]*\)', '', ..)`. -/
def subCalls : Nat → Option Char → List Char → List Char
  | 0, _, cs => cs
  | _ + 1, _, [] => []
  | fuel + 1, prev, c :: cs =>
    match (if atBoundary prev then
      (do
        let (_, r1) ← takeIdentL (c :: cs)
        match dropWsL r1 with
        | '(' :: r2 =>
          match r2.dropWhile (fun x => !(x == ')')) with
          | ')' :: r3 => some r3
          | _ => none
        | _ => none : Option (List Char))
      else none) with
    | some r3 => subCalls fuel (some ')') r3
    | none => c :: subCalls fuel (some c) cs

/-- `re.sub(r'\*\s*[a-zA-Z_]\w*', '', ..)`. -/
def subDerefs : Nat → List Char → List Char
  | 0, cs => cs
  | _ + 1, [] => []
  | fuel + 1, c :: cs =>
    if c == '*' then
      match takeIdentL (dropWsL cs) with
      | some (_, r) => subDerefs fuel r
      | none => c :: subDerefs fuel cs
    else c :: subDerefs fuel cs

/-- `re.sub(r'[a-zA-Z_]\w*\s*\[[^\]]+\]', '', ..)`. -/
def subArrays : Nat → List Char → List Char
  | 0, cs => cs
  | _ + 1, [] => []
  | fuel + 1, c :: cs =>
    match (do
      let (_, r1) ← takeIdentL (c :: cs)
      match dropWsL r1 with
      | '[' :: r2 =>
        let idx := r2.takeWhile (fun x => !(x == ']'))
        if idx.isEmpty then none
        else
          match r2.dropWhile (fun x => !(x == ']')) with
          | ']' :: r3 => some r3
          | _ => none
      | _ => none : Option (List Char)) with
    | some r3 => subArrays fuel r3
    | none => c :: subArrays fuel cs

/-- `re.sub(r'\b([a-zA-Z_]\w*)\.[a-zA-Z_]\w*', r'\1 ', ..)` (struct member access). -/
def subField : Nat → Option Char → List Char → List Char
  | 0, _, cs => cs
  | _ + 1, _, [] => []
  | fuel + 1, prev, c :: cs =>
    match (if atBoundary prev then
      (do
        let (nm, r1) ← takeIdentL (c :: cs)
        match r1 with
        | '.' :: r2 =>
          let (nm2, r3) ← takeIdentL r2
          some (nm, nm2, r3)
        | _ => none : Option (List Char × List Char × List Char))
      else none) with
    | some (nm, nm2, r3) => nm ++ (' ' :: subField fuel (some (nm2.getLastD 'a')) r3)
    | none => c :: subField fuel (some c) cs

/-- `DataflowAnalyzer.extract_variables_from_expression`. -/
def extract_variables_from_expression (expression : String) : List String :=
  if expression = "" then []
  else
    let e0 := cutAtSub expression.data "//".data
    let derefVars := (derefFindAll (e0.length + 1) e0).foldl
      (fun acc nm => acc ++ [mkS nm, mkS ('*' :: nm)]) []
    let callVars := (callsFindAll (e0.length + 1) none e0).foldl
      (fun acc args =>
        let argsS := pyStripL args
        if argsS.isEmpty then acc
        else
          (splitOnChar ',' argsS).foldl (fun acc arg =>
            let a := pyStripL arg
            if !a.isEmpty && !a.all isDigitC then
              let acc := if containsLC a "*".data then
                  match searchAny derefAt a with
                  | some pnm => acc ++ [mkS pnm, mkS ('*' :: pnm)]
                  | none => acc
                else acc
              (identsIn a).foldl (fun acc wv =>
                if argExcl.contains (mkS wv) then acc else acc ++ [mkS wv]) acc
            else acc) acc) []
    let arrVars := (arrayFindAll (e0.length + 1) e0).foldl
      (fun acc p =>
        let acc := acc ++ [mkS p.1]
        (identsIn p.2).foldl (fun acc wv =>
          if cKeywords.contains (mkS wv) || wv.length = 0 then acc else acc ++ [mkS wv]) acc) []
    let c1 := subQuoted '"' (e0.length + 1) e0
    let c2 := subQuoted (Char.ofNat 39) (c1.length + 1) c1
    let c3 := subNumRuns (c2.length + 1) c2
    let c4 := subCalls (c3.length + 1) none c3
    let c5 := subDerefs (c4.length + 1) c4
    let c6 := subArrays (c5.length + 1) c5
    let c7 := subField (c6.length + 1) none c6
    let residual := (identsIn c7).foldl
      (fun acc wv => if cKeywords.contains (mkS wv) then acc else acc ++ [mkS wv]) []
    pyDedup (derefVars ++ callVars ++ arrVars ++ residual)

/-! ### Statement classifier and `analyze_variables` -/

/-- `not line_stripped or line_stripped.startswith('//') or line_stripped.startswith('#')`. -/
def skipGuard (l : String) : Bool :=
  pyStrip l = "" || pyStarts (pyStrip l) "//" || pyStarts (pyStrip l) "#"

/-- The ordered rule dispatch of `analyze_variables` below the two skip guards:
raw reads, raw writes, final operation label, and the definition events
`(name, details)` registered while classifying. -/
def classifyBody (line : String) :
    List String × List String × String × List (String × String) :=
  match ruleDerefGuard line with
  | some ptr =>
    let deref := "*" ++ ptr
    let op := "Pointer dereference assignment: *" ++ ptr ++ " = value"
    let assignPart := if containsSub line "=" then mkS (afterFirstSub line.data "=".data) else ""
    ([ptr] ++ extract_variables_from_expression assignPart, [deref], op, [(deref, op)])
  | none =>
  match ruleDeclInit line with
  | some v =>
    let op := "Declaration and assignment of " ++ v
    let assignPart := if containsSub line "=" then mkS (afterFirstSub line.data "=".data) else ""
    (extract_variables_from_expression assignPart, [v], op, [(v, op)])
  | none =>
  if ruleDeclNoInit line then
    match searchBd typeStarAt none line.data with
    | some pr =>
      let names := identCommaFindAll (pr.2.length + 1) pr.2
      let res := names.foldl
        (fun (acc : List String × String × List (String × String)) nm =>
          let v := mkS nm
          if acc.1.contains v then acc
          else
            let op := "Declaration of " ++ v ++ (if pr.1 then " pointer" else "")
            (acc.1 ++ [v], op, acc.2.2 ++ [(v, op)]))
        ([], "", [])
      ([], res.1, res.2.1, res.2.2)
    | none => ([], [], "", [])
  else
  match rulePlainAssign line with
  | some v =>
    let op := "Assignment to " ++ v
    let assignPart := if containsSub line "=" then mkS (afterFirstSub line.data "=".data) else ""
    (extract_variables_from_expression assignPart, [v], op, [(v, op)])
  | none =>
  match ruleCtrl line with
  | some kw =>
    let op := "Control flow: " ++ kw ++ " statement"
    let reads :=
      match idxOfC line.data '(', idxOfC line.data ')' with
      | some a, some b => extract_variables_from_expression (mkS (sliceL line.data (a + 1) b))
      | _, _ => []
    (reads, [], op, [])
  | none =>
  match ruleCall line with
  | some f =>
    let op := "Function call: " ++ f ++ "()"
    let reads :=
      match idxOfC line.data '(', rIdxOfC line.data ')' with
      | some a, some b => extract_variables_from_expression (mkS (sliceL line.data (a + 1) b))
      | _, _ => []
    if (f = "malloc" || f = "calloc" || f = "realloc") && containsSub line "=" then
      match idxOfC line.data '(' with
      | some ps =>
        match searchAny identEqAt (line.data.take ps) with
        | some t =>
          let tv := mkS t
          let op2 := "Memory allocation: " ++ tv ++ " = " ++ f ++ "(...)"
          (reads, [tv], op2, [(tv, op2)])
        | none => (reads, [], op, [])
      | none => (reads, [], op, [])
    else (reads, [], op, [])
  | none =>
  if ruleReturn line then
    (extract_variables_from_expression (mkS (afterFirstSub line.data "return".data)), [],
      "Return statement", [])
  else ([], [], "", [])

inductive Classified
  | skip
  | record (reads writes : List String) (operation : String)
      (defEvents : List (String × String))
deriving DecidableEq

/-- One line of `analyze_variables`: the two `continue` guards, then the rule body. -/
def classify (line : String) : Classified :=
  if skipGuard line then .skip
  else if ruleFuncDef line then .skip
  else
    match classifyBody line with
    | (reads, writes, op, evs) => .record reads writes op evs

/-- The analyzer's mutable state: `varTable` embeds `self.variables`. -/
structure AnalyzerState where
  varTable : List (String × VarInfo)
  line_analysis : List (Nat × LineRec)
deriving DecidableEq

/-- `add_variable_definition` (dict keyed by name, append to `definitions`). -/
def addDefV : List (String × VarInfo) → String → Nat → String → List (String × VarInfo)
  | [], v, ln, d => [(v, ⟨[(ln, d)], []⟩)]
  | p :: rest, v, ln, d =>
    if p.1 = v then (p.1, ⟨p.2.definitions ++ [(ln, d)], p.2.uses⟩) :: rest
    else p :: addDefV rest v ln d

/-- `add_variable_use`. -/
def addUseV : List (String × VarInfo) → String → Nat → String → List (String × VarInfo)
  | [], v, ln, d => [(v, ⟨[], [(ln, d)]⟩)]
  | p :: rest, v, ln, d =>
    if p.1 = v then (p.1, ⟨p.2.definitions, p.2.uses ++ [(ln, d)]⟩) :: rest
    else p :: addUseV rest v ln d

/-- The per-line state update: definition events during classification, then a
use per raw read, then the stored LineRecord with `list(set(..))` reads/writes. -/
def analyzeGo : List String → Nat → AnalyzerState → AnalyzerState
  | [], _, st => st
  | l :: rest, ln, st =>
    analyzeGo rest (ln + 1)
      (match classify l with
       | .skip => st
       | .record reads writes op evs =>
         let vt := evs.foldl (fun vt e => addDefV vt e.1 ln e.2) st.varTable
         let vt2 := reads.foldl (fun vt v => addUseV vt v ln ("Used in: " ++ op)) vt
         ⟨vt2, st.line_analysis ++ [(ln, ⟨pyDedup reads, pyDedup writes, op⟩)]⟩)

/-- `DataflowAnalyzer.analyze_variables` (1-based line numbering). -/
def analyze_variables (lines : List String) : AnalyzerState :=
  analyzeGo lines 1 ⟨[], []⟩

/-- All eight classifier rules fail on the line. -/
def noRuleMatches (l : String) : Bool :=
  !ruleFuncDef l && (ruleDerefGuard l).isNone && (ruleDeclInit l).isNone &&
    !ruleDeclNoInit l && (rulePlainAssign l).isNone && (ruleCtrl l).isNone &&
    (ruleCall l).isNone && !ruleReturn l

/-! ### Control-flow block partitioner (`TTAGraphAnalyzer.create_logical_blocks`)

Pass 1 of the source fills local variables (`control_structures`, `brace_stack`)
that pass 2 never reads, so only pass 2 (the cursor-driven block carving) is
embedded.  Indices `i` are 0-based cursor positions; stored line numbers are
1-based. -/

/-- `\b(type)\s+main\s*\(` at a position (pass 2's START rule matches only
the function name `main`). -/
def mainSigAt (cs : List Char) : Option Unit := do
  let r1 ← matchOneOf typeKws cs
  let r2 ← requireWs1 r1
  let r3 ← litMatch "main".data r2
  match dropWsL r3 with
  | '(' :: _ => some ()
  | _ => none

def mainSig (l : String) : Bool := (searchBd mainSigAt none l.data).isSome

def loopHdr (l : String) : Bool := (searchBd (kwParenAt ["for", "while"]) none l.data).isSome

def ifHdr (l : String) : Bool := (searchBd (kwParenAt ["if"]) none l.data).isSome

def elseKw (l : String) : Bool := (searchBd (kwWordAt ["else"]) none l.data).isSome

/-- `re.search(r'\b(if|for|while|else|return)\b', ..)` (run-stop rule). -/
def kw5 (s : String) : Bool :=
  (searchBd (kwWordAt ["if", "for", "while", "else", "return"]) none s.data).isSome

/-- `any(keyword in prev_line for keyword in ['if', 'for', 'while', 'else'])`. -/
def prevKwTest (prevStripped : String) : Bool :=
  containsSub prevStripped "if" || containsSub prevStripped "for" ||
    containsSub prevStripped "while" || containsSub prevStripped "else"

/-- The sequential-statement collector of the generic-statement rule:
collected raw lines and the number of consumed lines. -/
def collectRun2 : List String → List String × Nat
  | [] => ([], 0)
  | l :: rest =>
    let cs := pyStrip l
    if cs = "" || pyStarts cs "#" || kw5 cs || cs = cbraceS ||
        (containsSub cs cbraceS && !containsSub cs obraceS) then ([], 0)
    else
      let r := collectRun2 rest
      (l :: r.1, r.2 + 1)

/-- The collector of the brace-after-control rule (blank lines are stepped
over without being collected; comments are collected). -/
def collectBrace : List String → List String × Nat
  | [] => ([], 0)
  | l :: rest =>
    let cs := pyStrip l
    if kw5 cs || containsSub cs cbraceS then ([], 0)
    else
      let r := collectBrace rest
      ((if cs = "" then [] else [l]) ++ r.1, r.2 + 1)

/-- The brace-counting collector of the else-with-brace rule. -/
def collectElse : List String → Int → List String × Nat
  | [], _ => ([], 0)
  | l :: rest, bc =>
    if 0 < bc then
      let bc2 := bc + (countC l.data obraceC : Int) - (countC l.data cbraceC : Int)
      let r := collectElse rest bc2
      (l :: r.1, r.2 + 1)
    else ([], 0)

/-- The look-ahead of the return rule: offset of a lone `}` to absorb when it
is the file's final closing brace, scanning over blank and comment lines. -/
def retLook : List String → Option Nat
  | [] => none
  | l :: rest =>
    let s := pyStrip l
    if s = cbraceS then
      if rest.countP (fun x => containsSub x cbraceS) = 0 then some 0 else none
    else if s ≠ "" && !pyStarts s "//" then none
    else (retLook rest).map (fun k => k + 1)

/-- `TTAGraphAnalyzer._create_block`. -/
def create_block (bid sl el : Nat) (ls : List String) (bt : String) : Block :=
  let meaningful := (ls.map pyStrip).filter (fun s => s ≠ "" && !pyStarts s "//")
  let preview :=
    match meaningful with
    | [] => obraceS ++ " ... " ++ cbraceS
    | m :: _ => if 50 < m.length then m.take 47 ++ "..." else m
  ⟨bid, bt, sl, el, ls, preview, []⟩

/-- One iteration of the pass 2 cursor loop: given the current raw line, the
stripped previous line, the remaining lines after the cursor, the cursor
position, the total line count and the next block id, return the block the
iteration emits (if any) and how many extra lines beyond the current one it
consumes.  The rules appear in source order: skip, START (literal
`main`), LOOP, XOR, END (raw substring `return`), else, brace-after-control,
generic statement, comment. -/
def carveStep (line prevStripped : String) (tail : List String) (i len bid : Nat) :
    Option Block × Nat :=
  if decide (pyStrip line = "") || pyStarts (pyStrip line) "#" then (none, 0)
  else if mainSig line then (some (create_block bid (i + 1) (i + 1) [line] "START"), 0)
  else if loopHdr line then (some (create_block bid (i + 1) (i + 1) [line] "LOOP"), 0)
  else if ifHdr line then (some (create_block bid (i + 1) (i + 1) [line] "XOR"), 0)
  else if containsSub line "return" then
    match retLook tail with
    | some k =>
      (some (create_block bid (i + 1) (i + 1 + k + 1) [line, tail.getD k ""] "END"), k + 1)
    | none => (some (create_block bid (i + 1) (i + 1) [line] "END"), 0)
  else if elseKw line then
    if containsSub line obraceS then
      if 2 < (line :: (collectElse tail 1).1).length then
        (some (create_block bid (i + 1) (i + 1 + ((line :: (collectElse tail 1).1).length - 1))
          (line :: (collectElse tail 1).1) "ACTIVITY"), (collectElse tail 1).2)
      else (none, (collectElse tail 1).2)
    else
      if i + 1 < len then
        (some (create_block bid (i + 1) (i + 2) [line, tail.getD 0 ""] "ACTIVITY"), 1)
      else (some (create_block bid (i + 1) (i + 1) [line] "ACTIVITY"), 0)
  else if containsSub line obraceS && decide (0 < i) && prevKwTest prevStripped then
    if (collectBrace tail).1 ≠ [] ∧
        (((collectBrace tail).1.map pyStrip).filter (fun x => x ≠ "" && !pyStarts x "//")) ≠ [] then
      (some (create_block bid (i + 1) (i + 1 + ((collectBrace tail).1.length - 1))
        (collectBrace tail).1 "ACTIVITY"), (collectBrace tail).2)
    else (none, (collectBrace tail).2)
  else if decide (pyStrip line ≠ "") && !pyStarts (pyStrip line) "//" then
    if (((line :: (collectRun2 tail).1).map pyStrip).filter
        (fun x => x ≠ "" && !pyStarts x "//")) ≠ [] then
      (some (create_block bid (i + 1) (i + 1 + ((line :: (collectRun2 tail).1).length - 1))
        (line :: (collectRun2 tail).1) "ACTIVITY"), (collectRun2 tail).2)
    else (none, (collectRun2 tail).2)
  else (none, 0)

/-- Fuel-driven form of the pass 2 cursor loop (the fuel only pads the
recursion: each iteration advances the cursor by at least one line, so
`lines.length - i` fuel always suffices). -/
def carveGo (lines : List String) : Nat → Nat → Nat → List Block
  | 0, _, _ => []
  | fuel + 1, i, bid =>
    if lines.length ≤ i then []
    else
      match carveStep (lines.getD i "") (pyStrip (lines.getD (i - 1) ""))
          (lines.drop (i + 1)) i lines.length bid with
      | (some b, extra) => b :: carveGo lines fuel (i + 1 + extra) (bid + 1)
      | (none, extra) => carveGo lines fuel (i + 1 + extra) bid

/-- Pass 2 of `create_logical_blocks`: the cursor-driven carving loop. -/
def carve (lines : List String) (i bid : Nat) : List Block :=
  carveGo lines (lines.length - i) i bid

/-- `TTAGraphAnalyzer.create_logical_blocks`. -/
def create_logical_blocks (lines : List String) : List Block := carve lines 0 0

/-! ### Arc builder (`TTAGraphAnalyzer.create_control_flow_arcs`) -/

/-- `range(a, lo, -1)` over naturals (descending, excludes `lo`). -/
def downIdxs (a lo : Nat) : List Nat := (List.range' (lo + 1) (a - lo)).reverse

/-- `TTAGraphAnalyzer._is_branch_block`: look up to two blocks backwards for XOR. -/
def is_branch_block (blocks : List Block) (idx : Nat) : Bool :=
  if idx = 0 then false
  else
    (downIdxs (idx - 1) (max 0 (idx - 3))).any
      (fun i => (blocks.getD i default).node_type == "XOR")

def idxsAfter (blocks : List Block) (i : Nat) : List Nat :=
  List.range' (i + 1) (blocks.length - (i + 1))

/-- `TTAGraphAnalyzer._find_merge_point`. -/
def find_merge_point (blocks : List Block) (branchIdx : Nat) : Option Nat :=
  (idxsAfter blocks branchIdx).find? (fun i =>
    let b := blocks.getD i default
    b.node_type == "LOOP" || b.node_type == "XOR" || b.node_type == "END" ||
      (b.node_type == "ACTIVITY" && !is_branch_block blocks i))

/-- `TTAGraphAnalyzer._find_xor_branches`. -/
def find_xor_branches (blocks : List Block) (xorIdx : Nat) : List Nat :=
  let branches := if xorIdx + 1 < blocks.length then [xorIdx + 1] else []
  let tbe := xorIdx + 1
  if tbe < blocks.length then
    if (blocks.getD tbe default).node_type == "ACTIVITY" then
      if tbe + 1 < blocks.length then
        let nb := blocks.getD (tbe + 1) default
        if nb.node_type == "ACTIVITY" then
          if nb.lines.any (fun l => containsSub l "else") || tbe + 1 == xorIdx + 2 then
            branches ++ [tbe + 1]
          else branches
        else branches
      else branches
    else branches
  else branches

/-- `TTAGraphAnalyzer._is_loop_end`. -/
def is_loop_end (blocks : List Block) (idx : Nat) : Bool :=
  if blocks.length ≤ idx then false
  else (blocks.getD idx default).lines.any (fun l => containsSub l cbraceS)

/-- The scanning loop of `_find_loop_exit` with its nesting depth counter. -/
def findLoopExitGo (blocks : List Block) (loopIdx : Nat) : List Nat → Int → Option Nat
  | [], _ => none
  | i :: rest, depth =>
    let b := blocks.getD i default
    let depth1 := if b.node_type == "LOOP" then depth + 1 else depth
    if depth1 == 0 &&
        (b.node_type == "XOR" || b.node_type == "LOOP" || b.node_type == "END") then some i
    else if depth1 == 0 && b.node_type == "ACTIVITY" && decide (loopIdx + 2 < i) then some i
    else
      let depth2 := if 0 < depth1 && is_loop_end blocks i then depth1 - 1 else depth1
      findLoopExitGo blocks loopIdx rest depth2

/-- `TTAGraphAnalyzer._find_loop_exit` (with its END-block fallback). -/
def find_loop_exit (blocks : List Block) (loopIdx : Nat) : Option Nat :=
  match findLoopExitGo blocks loopIdx (idxsAfter blocks loopIdx) 0 with
  | some i => some i
  | none =>
    (idxsAfter blocks loopIdx).find? (fun i => (blocks.getD i default).node_type == "END")

/-- The scanning loop of `_find_loop_body_end`. -/
def findLoopBodyEndGo (blocks : List Block) (exitI : Option Nat) :
    List Nat → Option Nat → Option Nat
  | [], acc => acc
  | i :: rest, acc =>
    if (match exitI with | some e => Nat.ble e i | none => false) then acc
    else
      let b := blocks.getD i default
      let acc2 :=
        if b.node_type == "ACTIVITY" then some i
        else if b.node_type == "XOR" then
          match find_xor_branches blocks i with
          | [] => acc
          | bs => some (bs.foldl max 0)
        else acc
      findLoopBodyEndGo blocks exitI rest acc2

/-- `TTAGraphAnalyzer._find_loop_body_end`. -/
def find_loop_body_end (blocks : List Block) (loopIdx : Nat) : Option Nat :=
  findLoopBodyEndGo blocks (find_loop_exit blocks loopIdx) (idxsAfter blocks loopIdx) none

/-- `TTAGraphAnalyzer.create_control_flow_arcs` (the source labels solid =
sequential, dashed = conditional, dotted = loop-back arcs). -/
def create_control_flow_arcs (blocks : List Block) : List Arc :=
  (List.range blocks.length).foldl (fun arcs i =>
    let b := blocks.getD i default
    if b.node_type == "START" then
      arcs ++ (if i + 1 < blocks.length then [⟨i, i + 1, "solid", "Function entry"⟩] else [])
    else if b.node_type == "ACTIVITY" then
      if is_branch_block blocks i then
        match find_merge_point blocks i with
        | some m => arcs ++ [⟨i, m, "solid", "Branch to merge"⟩]
        | none => arcs
      else
        if i + 1 < blocks.length && !((blocks.getD (i + 1) default).node_type == "END") then
          arcs ++ [⟨i, i + 1, "solid", "Sequential"⟩]
        else arcs
    else if b.node_type == "LOOP" then
      let arcs := arcs ++
        (if i + 1 < blocks.length then [⟨i, i + 1, "dashed", "Loop true"⟩] else [])
      let arcs :=
        match find_loop_exit blocks i with
        | some e => arcs ++ [⟨i, e, "dashed", "Loop false"⟩]
        | none => arcs
      match find_loop_body_end blocks i with
      | some le => arcs ++ [⟨le, i, "dotted", "Loop back"⟩]
      | none => arcs
    else if b.node_type == "XOR" then
      let bs := find_xor_branches blocks i
      let arcs :=
        match bs.get? 0 with
        | some b0 => arcs ++ [⟨i, b0, "dashed", "If true"⟩]
        | none => arcs
      match bs.get? 1 with
      | some b1 => arcs ++ [⟨i, b1, "dashed", "If false"⟩]
      | none => arcs
    else arcs) []

/-- Spec-side restatement of the amended preview rule: the first non-comment,
non-blank captured line (stripped), cut to its first 47 characters plus an
ellipsis when longer than 50 characters, and the placeholder when no
meaningful line exists. -/
def previewOfSpec (captured : List String) : String :=
  match (captured.map pyStrip).filter (fun s => s ≠ "" && !pyStarts s "//") with
  | [] => obraceS ++ " ... " ++ cbraceS
  | m :: _ => if m.length ≤ 50 then m else m.take 47 ++ "..."

/-! ### Views and spec-side predicates for the operation sequence -/

/-- The id- and next-independent fields of an operation. -/
def opView (o : Operation) : String × OpKind × Nat × String :=
  (o.variable_name, o.operation, o.line_number, o.details)

def viewAt (ops : List Operation) (i : Nat) : Option (String × OpKind × Nat × String) :=
  (ops[i]?).map opView

/-- Variable `w` is written at line `l` in the record list. -/
def writesAt (la : List (Nat × LineRec)) (w : String) (l : Nat) : Prop :=
  ∃ p ∈ la, p.1 = l ∧ w ∈ p.2.writes

instance (la : List (Nat × LineRec)) (w : String) (l : Nat) : Decidable (writesAt la w l) := by
  unfold writesAt
  infer_instance

/-- The last definition line the `variable_definitions` map holds for `v` after a
record list is folded over, starting from `acc`. -/
def lastWrittenAux (v : String) : List (Nat × LineRec) → Option Nat → Option Nat
  | [], acc => acc
  | p :: rest, acc => lastWrittenAux v rest (if v ∈ p.2.writes then some p.1 else acc)

/-! ### Chain structure of the operation sequence (claim C3) -/

/-- Operations at positions `i` carry id `k + i` and `next = k + i + 1`
(the shape of the list before the final `next` patch). -/
def ChainFrom (k : Nat) (ops : List Operation) : Prop :=
  ∀ i o, ops[i]? = some o → o.operation_id = k + i ∧ o.next = some (k + i + 1)

theorem chainFrom_nil (k : Nat) : ChainFrom k [] := by
  intro i o h
  simp at h

theorem chainFrom_cons {k : Nat} {o : Operation} {l : List Operation}
    (h1 : o.operation_id = k) (h2 : o.next = some (k + 1))
    (hl : ChainFrom (k + 1) l) : ChainFrom k (o :: l) := by
  intro i o' hi
  cases i with
  | zero =>
    simp at hi
    subst hi
    exact ⟨h1, by rw [h2]⟩
  | succ n =>
    simp at hi
    have := hl n o' hi
    refine ⟨by omega, ?_⟩
    rw [this.2]
    congr 1
    omega

theorem chainFrom_append {k : Nat} {a b : List Operation}
    (ha : ChainFrom k a) (hb : ChainFrom (k + a.length) b) : ChainFrom k (a ++ b) := by
  intro i o h
  by_cases hi : i < a.length
  · rw [List.getElem?_append_left hi] at h
    exact ha i o h
  · rw [List.getElem?_append_right (Nat.le_of_not_lt hi)] at h
    have := hb (i - a.length) o h
    constructor
    · omega
    · rw [this.2]
      congr 1
      omega

theorem emitWrites_counter (ln : Nat) (lbl : String) :
    ∀ (vs : List String) (defs : List (String × Nat)) (k : Nat),
      (emitWrites ln lbl vs defs k).2.2 = k + (emitWrites ln lbl vs defs k).1.length := by
  intro vs
  induction vs with
  | nil => intro defs k; simp [emitWrites]
  | cons v vs ih =>
    intro defs k
    cases h : lookupD defs v with
    | some prev =>
      simp only [emitWrites, h]
      rw [ih]
      simp
      omega
    | none =>
      simp only [emitWrites, h]
      rw [ih]
      simp
      omega

theorem emitWrites_chain (ln : Nat) (lbl : String) :
    ∀ (vs : List String) (defs : List (String × Nat)) (k : Nat),
      ChainFrom k (emitWrites ln lbl vs defs k).1 := by
  intro vs
  induction vs with
  | nil => intro defs k; simp only [emitWrites]; exact chainFrom_nil k
  | cons v vs ih =>
    intro defs k
    cases h : lookupD defs v with
    | some prev =>
      simp only [emitWrites, h]
      exact chainFrom_cons rfl rfl (chainFrom_cons rfl rfl (ih _ _))
    | none =>
      simp only [emitWrites, h]
      exact chainFrom_cons rfl rfl (ih _ _)

theorem emitReads_counter (ln : Nat) (lbl : String) :
    ∀ (vs : List String) (k : Nat),
      (emitReads ln lbl vs k).2 = k + (emitReads ln lbl vs k).1.length := by
  intro vs
  induction vs with
  | nil => intro k; simp [emitReads]
  | cons v vs ih =>
    intro k
    simp only [emitReads]
    rw [ih]
    simp
    omega

theorem emitReads_chain (ln : Nat) (lbl : String) :
    ∀ (vs : List String) (k : Nat), ChainFrom k (emitReads ln lbl vs k).1 := by
  intro vs
  induction vs with
  | nil => intro k; simp only [emitReads]; exact chainFrom_nil k
  | cons v vs ih =>
    intro k
    simp only [emitReads]
    exact chainFrom_cons rfl rfl (ih _)

theorem lineBatch_counter (lines : List String) (ln : Nat) (r : LineRec)
    (defs : List (String × Nat)) (k : Nat) :
    (lineBatch lines ln r defs k).2.2 = k + (lineBatch lines ln r defs k).1.length := by
  cases h : freeTarget lines ln with
  | some v =>
    simp only [lineBatch, h]
    simp
    rw [emitReads_counter, emitWrites_counter]
    omega
  | none =>
    simp only [lineBatch, h]
    simp
    rw [emitReads_counter, emitWrites_counter]
    omega

theorem lineBatch_chain (lines : List String) (ln : Nat) (r : LineRec)
    (defs : List (String × Nat)) (k : Nat) :
    ChainFrom k (lineBatch lines ln r defs k).1 := by
  have hw := emitWrites_chain ln r.operation r.writes defs k
  have hwk := emitWrites_counter ln r.operation r.writes defs k
  have hr := emitReads_chain ln r.operation r.reads (emitWrites ln r.operation r.writes defs k).2.2
  have hrk := emitReads_counter ln r.operation r.reads (emitWrites ln r.operation r.writes defs k).2.2
  cases h : freeTarget lines ln with
  | some v =>
    simp only [lineBatch, h]
    refine chainFrom_append (chainFrom_append hw ?_) ?_
    · rw [← hwk]; exact hr
    · intro i o hi
      cases i with
      | zero =>
        simp at hi
        subst hi
        refine ⟨?_, ?_⟩
        · simp only [List.length_append]
          omega
        · simp only [List.length_append, Option.some.injEq]
          omega
      | succ n => simp at hi
  | none =>
    simp only [lineBatch, h]
    refine chainFrom_append hw ?_
    rw [← hwk]
    exact hr

theorem opsGo_counter (lines : List String) :
    ∀ (la : List (Nat × LineRec)) (defs : List (String × Nat)) (k : Nat),
      (opsGo lines la defs k).2.2 = k + (opsGo lines la defs k).1.length := by
  intro la
  induction la with
  | nil => intro defs k; simp [opsGo]
  | cons p rest ih =>
    intro defs k
    obtain ⟨ln, r⟩ := p
    simp only [opsGo]
    rw [ih]
    rw [lineBatch_counter]
    simp
    omega

theorem opsGo_chain (lines : List String) :
    ∀ (la : List (Nat × LineRec)) (defs : List (String × Nat)) (k : Nat),
      ChainFrom k (opsGo lines la defs k).1 := by
  intro la
  induction la with
  | nil => intro defs k; simp only [opsGo]; exact chainFrom_nil k
  | cons p rest ih =>
    intro defs k
    obtain ⟨ln, r⟩ := p
    simp only [opsGo]
    refine chainFrom_append (lineBatch_chain lines ln r defs k) ?_
    rw [← lineBatch_counter]
    exact ih _ _

theorem patchLast_length : ∀ ops : List Operation, (patchLast ops).length = ops.length := by
  intro ops
  induction ops with
  | nil => rfl
  | cons o rest ih =>
    cases rest with
    | nil => rfl
    | cons o2 rest2 =>
      simp only [patchLast] at ih ⊢
      simp [ih]

theorem patchLast_getElem? :
    ∀ (ops : List Operation) (i : Nat),
      (patchLast ops)[i]? =
        (if i + 1 = ops.length then (ops[i]?).map (fun o => { o with next := none })
         else ops[i]?) := by
  intro ops
  induction ops with
  | nil => intro i; simp [patchLast]
  | cons o rest ih =>
    intro i
    cases rest with
    | nil =>
      cases i with
      | zero => simp [patchLast]
      | succ n => simp [patchLast]
    | cons o2 rest2 =>
      cases i with
      | zero =>
        have : ¬(0 + 1 = (o :: o2 :: rest2).length) := by simp
        simp only [patchLast, this, if_false]
        simp
      | succ n =>
        simp only [patchLast, List.getElem?_cons_succ, List.length_cons]
        rw [ih n]
        by_cases h : n + 1 = (o2 :: rest2).length
        · rw [if_pos h, if_pos (by simpa using congrArg Nat.succ h)]
        · rw [if_neg h, if_neg (by simp at h ⊢; omega)]

/-- C3: for every produced operation sequence, the operation at position `i`
carries id `i`, its `next` is `i + 1` except at the final position, and exactly
the final position carries the terminal sentinel `none`. -/
theorem claim_C3_dense_ids_single_terminal
    (la : List (Nat × LineRec)) (lines : List String) (i : Nat) (o : Operation)
    (h : (build_operation_sequence la lines)[i]? = some o) :
    o.operation_id = i ∧
      o.next = (if i + 1 = (build_operation_sequence la lines).length then none
                else some (i + 1)) := by
  have hc := opsGo_chain lines la [] 0
  have hlen : (build_operation_sequence la lines).length = (opsGo lines la [] 0).1.length := by
    unfold build_operation_sequence
    exact patchLast_length _
  unfold build_operation_sequence at h ⊢
  rw [patchLast_getElem?] at h
  by_cases hi : i + 1 = (opsGo lines la [] 0).1.length
  · rw [if_pos hi] at h
    rw [if_pos (by rw [patchLast_length]; exact hi)]
    cases hraw : (opsGo lines la [] 0).1[i]? with
    | none => rw [hraw] at h; simp at h
    | some o' =>
      rw [hraw] at h
      simp at h
      have := hc i o' hraw
      constructor
      · rw [← h]
        simpa using this.1
      · rw [← h]
  · rw [if_neg hi] at h
    rw [if_neg (by rw [patchLast_length]; exact hi)]
    have := hc i o h
    refine ⟨by simpa using this.1, ?_⟩
    rw [this.2]
    simp

/-- Witness for C3 at a concrete input. -/
theorem claim_C3_dense_ids_single_terminal_witness :
    ((build_operation_sequence [(1, ⟨[], ["x"], "d"⟩)] [""])[0]? =
       some ⟨0, "x", OpKind.WRITE, 1, "d", none⟩) ∧
    ((⟨0, "x", OpKind.WRITE, 1, "d", none⟩ : Operation).operation_id = 0 ∧
      (⟨0, "x", OpKind.WRITE, 1, "d", none⟩ : Operation).next =
        (if 0 + 1 = (build_operation_sequence [(1, ⟨[], ["x"], "d"⟩)] [""]).length then none
         else some (0 + 1))) :=
  ⟨by decide, claim_C3_dense_ids_single_terminal [(1, ⟨[], ["x"], "d"⟩)] [""] 0 _ (by decide)⟩

/-! ### Definition-map bookkeeping of the builder (claims C2/C4) -/

theorem lookupD_updateD_self (defs : List (String × Nat)) (v : String) (ln : Nat) :
    lookupD (updateD defs v ln) v = some ln := by
  simp [lookupD, updateD]

theorem findFilterNe (v w : String) (h : v ≠ w) :
    ∀ defs : List (String × Nat),
      (defs.filter (fun p => !(p.1 == v))).find? (fun p => p.1 == w) =
        defs.find? (fun p => p.1 == w) := by
  intro defs
  induction defs with
  | nil => rfl
  | cons p rest ih =>
    by_cases hp : p.1 = v
    · have hw : (p.1 == w) = false := beq_eq_false_iff_ne.mpr (by rw [hp]; exact h)
      have hv2 : (!(p.1 == v)) = false := by simp [hp]
      simp only [List.filter_cons, hv2, List.find?_cons, hw, cond_false,
        Bool.false_eq_true, if_false]
      exact ih
    · have hv2 : (!(p.1 == v)) = true := by simp [hp]
      simp only [List.filter_cons, hv2, if_true, List.find?_cons]
      cases hw : (p.1 == w) with
      | true => simp
      | false => simpa using ih

theorem lookupD_updateD_ne (defs : List (String × Nat)) (v w : String) (ln : Nat)
    (h : v ≠ w) : lookupD (updateD defs v ln) w = lookupD defs w := by
  simp only [lookupD, updateD]
  rw [List.find?_cons_of_neg _ (by simpa using h), findFilterNe v w h defs]

theorem opsGo_append (lines : List String) :
    ∀ (a b : List (Nat × LineRec)) (defs : List (String × Nat)) (k : Nat),
      opsGo lines (a ++ b) defs k =
        ((opsGo lines a defs k).1 ++
            (opsGo lines b (opsGo lines a defs k).2.1 (opsGo lines a defs k).2.2).1,
          (opsGo lines b (opsGo lines a defs k).2.1 (opsGo lines a defs k).2.2).2) := by
  intro a
  induction a with
  | nil => intro b defs k; simp [opsGo]
  | cons p rest ih =>
    intro b defs k
    obtain ⟨ln, r⟩ := p
    show opsGo lines ((ln, r) :: (rest ++ b)) defs k = _
    simp only [opsGo]
    rw [ih]
    simp [List.append_assoc]

theorem emitWrites_defs (ln : Nat) (lbl : String) :
    ∀ (vs : List String) (defs : List (String × Nat)) (k : Nat) (v : String),
      lookupD (emitWrites ln lbl vs defs k).2.1 v =
        (if v ∈ vs then some ln else lookupD defs v) := by
  intro vs
  induction vs with
  | nil => intro defs k v; simp [emitWrites]
  | cons x vs ih =>
    intro defs k v
    have step : ∀ k2 : Nat,
        lookupD (emitWrites ln lbl vs (updateD defs x ln) k2).2.1 v =
          (if v ∈ x :: vs then some ln else lookupD defs v) := by
      intro k2
      rw [ih]
      by_cases hv : v ∈ vs
      · rw [if_pos hv, if_pos (List.mem_cons_of_mem _ hv)]
      · rw [if_neg hv]
        by_cases hvx : v = x
        · subst hvx
          rw [lookupD_updateD_self, if_pos (List.mem_cons_self _ _)]
        · rw [lookupD_updateD_ne _ _ _ _ (fun hh => hvx hh.symm),
            if_neg (by simp [hvx, hv])]
    cases h : lookupD defs x with
    | some prev => simp only [emitWrites, h]; exact step _
    | none => simp only [emitWrites, h]; exact step _

theorem lineBatch_defs (lines : List String) (ln : Nat) (r : LineRec)
    (defs : List (String × Nat)) (k : Nat) (v : String) :
    lookupD (lineBatch lines ln r defs k).2.1 v =
      (if v ∈ r.writes then some ln else lookupD defs v) := by
  cases h : freeTarget lines ln with
  | some w => simp only [lineBatch, h]; exact emitWrites_defs _ _ _ _ _ _
  | none => simp only [lineBatch, h]; exact emitWrites_defs _ _ _ _ _ _

theorem opsGo_defs (lines : List String) :
    ∀ (la : List (Nat × LineRec)) (defs : List (String × Nat)) (k : Nat) (v : String),
      lookupD (opsGo lines la defs k).2.1 v = lastWrittenAux v la (lookupD defs v) := by
  intro la
  induction la with
  | nil => intro defs k v; simp [opsGo, lastWrittenAux]
  | cons p rest ih =>
    intro defs k v
    obtain ⟨ln, r⟩ := p
    simp only [opsGo, lastWrittenAux]
    rw [ih, lineBatch_defs]

theorem lastWrittenAux_append (v : String) :
    ∀ (a b : List (Nat × LineRec)) (acc : Option Nat),
      lastWrittenAux v (a ++ b) acc = lastWrittenAux v b (lastWrittenAux v a acc) := by
  intro a
  induction a with
  | nil => intro b acc; rfl
  | cons p rest ih =>
    intro b acc
    simp only [List.cons_append, lastWrittenAux]
    exact ih _ _

/-- Under strictly ascending line numbers, the folded definition map holds the
greatest write line of `v`. -/
theorem lastWrittenAux_max (v : String) (L1 : Nat) :
    ∀ la : List (Nat × LineRec),
      la.Pairwise (fun p q => p.1 < q.1) →
      writesAt la v L1 →
      (∀ p ∈ la, v ∈ p.2.writes → p.1 ≤ L1) →
      ∀ acc, lastWrittenAux v la acc = some L1 := by
  intro la
  induction la using List.reverseRecOn with
  | nil =>
    intro _ hwr _ acc
    obtain ⟨p, hp, _⟩ := hwr
    simp at hp
  | append_singleton xs x ih =>
    intro hsort hwr hmax acc
    rw [lastWrittenAux_append]
    have hsx : xs.Pairwise (fun p q => p.1 < q.1) :=
      (List.pairwise_append.mp hsort).1
    have hlt : ∀ p ∈ xs, p.1 < x.1 := by
      intro p hp
      exact (List.pairwise_append.mp hsort).2.2 p hp x (by simp)
    by_cases hx : v ∈ x.2.writes
    · have hx1 : x.1 ≤ L1 := hmax x (by simp) hx
      have hL1x : L1 = x.1 := by
        obtain ⟨p, hp, hpl, hpw⟩ := hwr
        rcases List.mem_append.mp hp with hpxs | hpx
        · have := hlt p hpxs
          omega
        · simp at hpx
          subst hpx
          omega
      simp [lastWrittenAux, hx, hL1x]
    · have hwr' : writesAt xs v L1 := by
        obtain ⟨p, hp, hpl, hpw⟩ := hwr
        rcases List.mem_append.mp hp with hpxs | hpx
        · exact ⟨p, hpxs, hpl, hpw⟩
        · simp at hpx
          subst hpx
          exact absurd hpw hx
      have hmax' : ∀ p ∈ xs, v ∈ p.2.writes → p.1 ≤ L1 := by
        intro p hp hw
        exact hmax p (List.mem_append.mpr (Or.inl hp)) hw
      simp only [lastWrittenAux, hx, if_false]
      exact ih hsx hwr' hmax' acc

theorem emitWrites_line_numbers (ln : Nat) (lbl : String) :
    ∀ (vs : List String) (defs : List (String × Nat)) (k : Nat),
      ∀ o ∈ (emitWrites ln lbl vs defs k).1, o.line_number = ln := by
  intro vs
  induction vs with
  | nil => intro defs k o ho; simp [emitWrites] at ho
  | cons x vs ih =>
    intro defs k o ho
    cases h : lookupD defs x with
    | some prev =>
      simp only [emitWrites, h, List.mem_cons] at ho
      rcases ho with rfl | rfl | ho
      · rfl
      · rfl
      · exact ih _ _ o ho
    | none =>
      simp only [emitWrites, h, List.mem_cons] at ho
      rcases ho with rfl | ho
      · rfl
      · exact ih _ _ o ho

theorem emitReads_line_numbers (ln : Nat) (lbl : String) :
    ∀ (vs : List String) (k : Nat), ∀ o ∈ (emitReads ln lbl vs k).1, o.line_number = ln := by
  intro vs
  induction vs with
  | nil => intro k o ho; simp [emitReads] at ho
  | cons x vs ih =>
    intro k o ho
    simp only [emitReads, List.mem_cons] at ho
    rcases ho with rfl | ho
    · rfl
    · exact ih _ o ho

theorem lineBatch_line_numbers (lines : List String) (ln : Nat) (r : LineRec)
    (defs : List (String × Nat)) (k : Nat) :
    ∀ o ∈ (lineBatch lines ln r defs k).1, o.line_number = ln := by
  intro o ho
  cases h : freeTarget lines ln with
  | some w =>
    simp only [lineBatch, h] at ho
    rcases List.mem_append.mp ho with ho | ho
    · rcases List.mem_append.mp ho with ho | ho
      · exact emitWrites_line_numbers _ _ _ _ _ o ho
      · exact emitReads_line_numbers _ _ _ _ o ho
    · simp at ho
      rw [ho]
  | none =>
    simp only [lineBatch, h] at ho
    rcases List.mem_append.mp ho with ho | ho
    · exact emitWrites_line_numbers _ _ _ _ _ o ho
    · exact emitReads_line_numbers _ _ _ _ o ho

theorem opsGo_line_numbers (lines : List String) :
    ∀ (la : List (Nat × LineRec)) (defs : List (String × Nat)) (k : Nat),
      ∀ o ∈ (opsGo lines la defs k).1, ∃ p ∈ la, o.line_number = p.1 := by
  intro la
  induction la with
  | nil => intro defs k o ho; simp [opsGo] at ho
  | cons p rest ih =>
    intro defs k o ho
    obtain ⟨ln, r⟩ := p
    simp only [opsGo] at ho
    rcases List.mem_append.mp ho with ho | ho
    · exact ⟨(ln, r), by simp, lineBatch_line_numbers _ _ _ _ _ o ho⟩
    · obtain ⟨q, hq, hql⟩ := ih _ _ o ho
      exact ⟨q, by simp [hq], hql⟩

theorem emitWrites_mem_write (ln : Nat) (lbl : String) (v : String) :
    ∀ (vs : List String) (defs : List (String × Nat)) (k : Nat), v ∈ vs →
      ∃ o ∈ (emitWrites ln lbl vs defs k).1,
        o.variable_name = v ∧ o.operation = OpKind.WRITE ∧ o.line_number = ln := by
  intro vs
  induction vs with
  | nil => intro defs k hv; simp at hv
  | cons x vs ih =>
    intro defs k hv
    rcases List.mem_cons.mp hv with hvx | hvv
    · subst hvx
      cases h : lookupD defs v with
      | some prev =>
        refine ⟨⟨k + 1, v, OpKind.WRITE, ln, lbl, some (k + 2)⟩, ?_, rfl, rfl, rfl⟩
        simp [emitWrites, h]
      | none =>
        refine ⟨⟨k, v, OpKind.WRITE, ln, lbl, some (k + 1)⟩, ?_, rfl, rfl, rfl⟩
        simp [emitWrites, h]
    · cases h : lookupD defs x with
      | some prev =>
        obtain ⟨o, ho, hp⟩ := ih (updateD defs x ln) (k + 2) hvv
        exact ⟨o, by simp [emitWrites, h]; right; right; exact ho, hp⟩
      | none =>
        obtain ⟨o, ho, hp⟩ := ih (updateD defs x ln) (k + 1) hvv
        exact ⟨o, by simp [emitWrites, h]; right; exact ho, hp⟩

theorem opsGo_mem_write (lines : List String) (v : String) (ln : Nat) (r : LineRec) :
    ∀ (la : List (Nat × LineRec)) (defs : List (String × Nat)) (k : Nat),
      (ln, r) ∈ la → v ∈ r.writes →
      ∃ o ∈ (opsGo lines la defs k).1,
        o.variable_name = v ∧ o.operation = OpKind.WRITE ∧ o.line_number = ln := by
  intro la
  induction la with
  | nil => intro defs k hmem _; simp at hmem
  | cons p rest ih =>
    intro defs k hmem hv
    rcases List.mem_cons.mp hmem with hp | hp
    · subst hp
      obtain ⟨o, ho, hprops⟩ := emitWrites_mem_write ln r.operation v r.writes defs k hv
      refine ⟨o, ?_, hprops⟩
      simp only [opsGo]
      refine List.mem_append.mpr (Or.inl ?_)
      cases h : freeTarget lines ln with
      | some w =>
        simp only [lineBatch, h]
        exact List.mem_append.mpr (Or.inl (List.mem_append.mpr (Or.inl ho)))
      | none =>
        simp only [lineBatch, h]
        exact List.mem_append.mpr (Or.inl ho)
    · obtain ⟨ln2, r2⟩ := p
      obtain ⟨o, ho, hprops⟩ := ih _ _ hp hv
      refine ⟨o, ?_, hprops⟩
      simp only [opsGo]
      exact List.mem_append.mpr (Or.inr ho)

/-- In the WRITE loop, a variable with a previously mapped definition line `p`
gets a KILL (referencing `p`) immediately followed by its WRITE. -/
theorem emitWrites_kill_write (ln : Nat) (lbl : String) (w : String) (p : Nat) :
    ∀ (vs : List String) (defs : List (String × Nat)) (k : Nat),
      w ∈ vs → lookupD defs w = some p →
      ∃ i o1 o2, (emitWrites ln lbl vs defs k).1[i]? = some o1 ∧
        (emitWrites ln lbl vs defs k).1[i + 1]? = some o2 ∧
        opView o1 = (w, OpKind.KILL, ln, kill_details w p) ∧
        opView o2 = (w, OpKind.WRITE, ln, lbl) := by
  intro vs
  induction vs with
  | nil => intro defs k hv _; simp at hv
  | cons x vs ih =>
    intro defs k hv hl
    by_cases hxw : x = w
    · subst hxw
      refine ⟨0, ⟨k, x, OpKind.KILL, ln, kill_details x p, some (k + 1)⟩,
        ⟨k + 1, x, OpKind.WRITE, ln, lbl, some (k + 2)⟩, ?_, ?_, rfl, rfl⟩
      · simp [emitWrites, hl]
      · simp [emitWrites, hl]
    · have hv2 : w ∈ vs := by
        rcases List.mem_cons.mp hv with h1 | h1
        · exact absurd h1.symm hxw
        · exact h1
      have hl2 : lookupD (updateD defs x ln) w = some p := by
        rw [lookupD_updateD_ne _ _ _ _ hxw]
        exact hl
      cases h : lookupD defs x with
      | some prev =>
        obtain ⟨i, o1, o2, h1, h2, hv1, hv2'⟩ := ih (updateD defs x ln) (k + 2) hv2 hl2
        refine ⟨i + 2, o1, o2, ?_, ?_, hv1, hv2'⟩
        · simp only [emitWrites, h, List.getElem?_cons_succ]
          exact h1
        · simp only [emitWrites, h, List.getElem?_cons_succ]
          exact h2
      | none =>
        obtain ⟨i, o1, o2, h1, h2, hv1, hv2'⟩ := ih (updateD defs x ln) (k + 1) hv2 hl2
        refine ⟨i + 1, o1, o2, ?_, ?_, hv1, hv2'⟩
        · simp only [emitWrites, h, List.getElem?_cons_succ]
          exact h1
        · simp only [emitWrites, h, List.getElem?_cons_succ]
          exact h2

/-- Lift the adjacency to the whole line batch. -/
theorem lineBatch_kill_write (lines : List String) (ln : Nat) (r : LineRec)
    (defs : List (String × Nat)) (k : Nat) (w : String) (p : Nat)
    (hv : w ∈ r.writes) (hl : lookupD defs w = some p) :
    ∃ i o1 o2, (lineBatch lines ln r defs k).1[i]? = some o1 ∧
      (lineBatch lines ln r defs k).1[i + 1]? = some o2 ∧
      opView o1 = (w, OpKind.KILL, ln, kill_details w p) ∧
      opView o2 = (w, OpKind.WRITE, ln, r.operation) := by
  obtain ⟨i, o1, o2, h1, h2, hv1, hv2⟩ :=
    emitWrites_kill_write ln r.operation w p r.writes defs k hv hl
  have hi1 : i < (emitWrites ln r.operation r.writes defs k).1.length :=
    (List.getElem?_eq_some.mp h1).1
  have hi2 : i + 1 < (emitWrites ln r.operation r.writes defs k).1.length :=
    (List.getElem?_eq_some.mp h2).1
  cases h : freeTarget lines ln with
  | some v =>
    refine ⟨i, o1, o2, ?_, ?_, hv1, hv2⟩
    · simp only [lineBatch, h]
      rw [List.getElem?_append_left (by simp; omega), List.getElem?_append_left hi1]
      exact h1
    · simp only [lineBatch, h]
      rw [List.getElem?_append_left (by simp; omega), List.getElem?_append_left hi2]
      exact h2
  | none =>
    refine ⟨i, o1, o2, ?_, ?_, hv1, hv2⟩
    · simp only [lineBatch, h]
      rw [List.getElem?_append_left hi1]
      exact h1
    · simp only [lineBatch, h]
      rw [List.getElem?_append_left hi2]
      exact h2

theorem memOfGetElemQ {α : Type} {l : List α} {i : Nat} {a : α}
    (h : l[i]? = some a) : a ∈ l := by
  obtain ⟨hlt, he⟩ := List.getElem?_eq_some.mp h
  rw [← he]
  exact List.getElem_mem hlt

theorem viewAt_patchLast (ops : List Operation) (i : Nat) :
    viewAt (patchLast ops) i = viewAt ops i := by
  unfold viewAt
  rw [patchLast_getElem?]
  by_cases h : i + 1 = ops.length
  · rw [if_pos h]
    cases ops[i]? with
    | none => rfl
    | some o => rfl
  · rw [if_neg h]

/-- C2: a redefinition of `w` at line `L2` (with nearest prior definition at
`L1 < L2`) puts into the sequence a KILL for `w` at `L2` whose details reference
`L1`, immediately followed by the WRITE for `w` at `L2`; the WRITE for `w` at
`L1` occurs strictly earlier. -/
theorem claim_C2_redefinition_kill
    (la : List (Nat × LineRec)) (lines : List String) (w : String)
    (L1 L2 : Nat) (r2 : LineRec)
    (hsort : la.Pairwise (fun p q => p.1 < q.1))
    (hmem : (L2, r2) ∈ la) (hw : w ∈ r2.writes)
    (h1 : writesAt la w L1) (h12 : L1 < L2)
    (hmax : ∀ p ∈ la, w ∈ p.2.writes → p.1 < L2 → p.1 ≤ L1) :
    ∃ i j, j < i ∧
      viewAt (build_operation_sequence la lines) i =
        some (w, OpKind.KILL, L2, kill_details w L1) ∧
      viewAt (build_operation_sequence la lines) (i + 1) =
        some (w, OpKind.WRITE, L2, r2.operation) ∧
      ∃ d, viewAt (build_operation_sequence la lines) j =
        some (w, OpKind.WRITE, L1, d) := by
  obtain ⟨pre, post, hsplit⟩ := List.append_of_mem hmem
  subst hsplit
  have hparts := List.pairwise_append.mp hsort
  have hpre_lt : ∀ p ∈ pre, p.1 < L2 := by
    intro p hp
    exact hparts.2.2 p hp (L2, r2) (List.mem_cons_self _ _)
  have hpost_gt : ∀ q ∈ post, L2 < q.1 := by
    intro q hq
    exact (List.pairwise_cons.mp hparts.2.1).1 q hq
  have hwpre : writesAt pre w L1 := by
    obtain ⟨p1, hp1, hp1l, hp1w⟩ := h1
    rcases List.mem_append.mp hp1 with hin | hin
    · exact ⟨p1, hin, hp1l, hp1w⟩
    · rcases List.mem_cons.mp hin with heq | hin2
      · subst heq
        simp at hp1l
        omega
      · have := hpost_gt p1 hin2
        omega
  have hmax_pre : ∀ p ∈ pre, w ∈ p.2.writes → p.1 ≤ L1 := by
    intro p hp hw2
    exact hmax p (List.mem_append.mpr (Or.inl hp)) hw2 (hpre_lt p hp)
  have hlast : lastWrittenAux w pre none = some L1 :=
    lastWrittenAux_max w L1 pre hparts.1 hwpre hmax_pre none
  have hdefs1 : lookupD (opsGo lines pre [] 0).2.1 w = some L1 := by
    rw [opsGo_defs]
    exact hlast
  obtain ⟨t, o1, o2, ht1, ht2, hview1, hview2⟩ :=
    lineBatch_kill_write lines L2 r2 (opsGo lines pre [] 0).2.1 (opsGo lines pre [] 0).2.2
      w L1 hw hdefs1
  have hraw : (opsGo lines (pre ++ (L2, r2) :: post) [] 0).1 =
      (opsGo lines pre [] 0).1 ++
        ((lineBatch lines L2 r2 (opsGo lines pre [] 0).2.1 (opsGo lines pre [] 0).2.2).1 ++
          (opsGo lines post
            (lineBatch lines L2 r2 (opsGo lines pre [] 0).2.1 (opsGo lines pre [] 0).2.2).2.1
            (lineBatch lines L2 r2 (opsGo lines pre [] 0).2.1 (opsGo lines pre [] 0).2.2).2.2).1) := by
    rw [opsGo_append]
    simp only [opsGo]
  obtain ⟨p1, hp1, hp1l, hp1w⟩ := hwpre
  have hp1mem : (L1, p1.2) ∈ pre := by
    have : p1 = (L1, p1.2) := by
      rw [← hp1l]
    rw [← this]
    exact hp1
  obtain ⟨ow, howmem, howv, howk, howl⟩ :=
    opsGo_mem_write lines w L1 p1.2 pre [] 0 hp1mem hp1w
  obtain ⟨j0, hj0⟩ := List.getElem?_of_mem howmem
  have hj0lt : j0 < (opsGo lines pre [] 0).1.length := (List.getElem?_eq_some.mp hj0).1
  have ht1lt := (List.getElem?_eq_some.mp ht1).1
  have ht2lt := (List.getElem?_eq_some.mp ht2).1
  refine ⟨(opsGo lines pre [] 0).1.length + t, j0, by omega, ?_, ?_, ow.details, ?_⟩
  · unfold build_operation_sequence
    rw [viewAt_patchLast]
    unfold viewAt
    rw [hraw, List.getElem?_append_right (by omega), Nat.add_sub_cancel_left,
      List.getElem?_append_left ht1lt, ht1]
    simp [hview1]
  · unfold build_operation_sequence
    rw [viewAt_patchLast]
    unfold viewAt
    rw [hraw,
      show (opsGo lines pre [] 0).1.length + t + 1 =
        (opsGo lines pre [] 0).1.length + (t + 1) by omega,
      List.getElem?_append_right (by omega), Nat.add_sub_cancel_left,
      List.getElem?_append_left ht2lt, ht2]
    simp [hview2]
  · unfold build_operation_sequence
    rw [viewAt_patchLast]
    unfold viewAt
    rw [hraw, List.getElem?_append_left hj0lt, hj0]
    simp [opView, howv, howk, howl]

/-- Witness for C2 at a concrete two-line redefinition. -/
theorem claim_C2_redefinition_kill_witness :
    ∃ i j, j < i ∧
      viewAt (build_operation_sequence
        [(1, ⟨[], ["x"], "d1"⟩), (2, ⟨[], ["x"], "d2"⟩)] ["", ""]) i =
        some ("x", OpKind.KILL, 2, kill_details "x" 1) ∧
      viewAt (build_operation_sequence
        [(1, ⟨[], ["x"], "d1"⟩), (2, ⟨[], ["x"], "d2"⟩)] ["", ""]) (i + 1) =
        some ("x", OpKind.WRITE, 2, (⟨[], ["x"], "d2"⟩ : LineRec).operation) ∧
      ∃ d, viewAt (build_operation_sequence
        [(1, ⟨[], ["x"], "d1"⟩), (2, ⟨[], ["x"], "d2"⟩)] ["", ""]) j =
        some ("x", OpKind.WRITE, 1, d) :=
  claim_C2_redefinition_kill
    [(1, ⟨[], ["x"], "d1"⟩), (2, ⟨[], ["x"], "d2"⟩)] ["", ""] "x" 1 2 ⟨[], ["x"], "d2"⟩
    (by decide) (by decide) (by decide) (by decide) (by decide) (by decide)

/-- C4: when a record's line contains a recognizable `free(..)` call, a KILL
for the freed variable carrying that line number is emitted after every WRITE
and READ operation of that line. -/
theorem claim_C4_free_kill_last
    (la : List (Nat × LineRec)) (lines : List String) (ln : Nat) (r : LineRec) (v : String)
    (hnd : (la.map Prod.fst).Nodup)
    (hmem : (ln, r) ∈ la) (hfree : freeTarget lines ln = some v) :
    ∃ i, viewAt (build_operation_sequence la lines) i =
        some (v, OpKind.KILL, ln, free_details v) ∧
      ∀ j w2 k2 d2, viewAt (build_operation_sequence la lines) j = some (w2, k2, ln, d2) →
        (k2 = OpKind.WRITE ∨ k2 = OpKind.READ) → j < i := by
  obtain ⟨pre, post, hsplit⟩ := List.append_of_mem hmem
  subst hsplit
  have hndparts : ∀ p ∈ pre, p.1 ≠ ln := by
    intro p hp
    have := hnd
    rw [List.map_append, List.nodup_append] at this
    intro hpe
    exact this.2.2 (List.mem_map_of_mem _ hp) (by simp [hpe])
  have hndpost : ∀ p ∈ post, p.1 ≠ ln := by
    have := hnd
    rw [List.map_append, List.nodup_append] at this
    have h2 := this.2.1
    simp only [List.map_cons, List.nodup_cons] at h2
    intro p hp hpe
    exact h2.1 (by rw [← hpe]; exact List.mem_map_of_mem _ hp)
  have hraw : (opsGo lines (pre ++ (ln, r) :: post) [] 0).1 =
      (opsGo lines pre [] 0).1 ++
        ((lineBatch lines ln r (opsGo lines pre [] 0).2.1 (opsGo lines pre [] 0).2.2).1 ++
          (opsGo lines post
            (lineBatch lines ln r (opsGo lines pre [] 0).2.1 (opsGo lines pre [] 0).2.2).2.1
            (lineBatch lines ln r (opsGo lines pre [] 0).2.1 (opsGo lines pre [] 0).2.2).2.2).1) := by
    rw [opsGo_append]
    simp only [opsGo]
  have hbatch : (lineBatch lines ln r (opsGo lines pre [] 0).2.1 (opsGo lines pre [] 0).2.2).1 =
      (emitWrites ln r.operation r.writes (opsGo lines pre [] 0).2.1 (opsGo lines pre [] 0).2.2).1
        ++ (emitReads ln r.operation r.reads
             (emitWrites ln r.operation r.writes (opsGo lines pre [] 0).2.1
               (opsGo lines pre [] 0).2.2).2.2).1
        ++ [⟨(emitReads ln r.operation r.reads
               (emitWrites ln r.operation r.writes (opsGo lines pre [] 0).2.1
                 (opsGo lines pre [] 0).2.2).2.2).2, v, OpKind.KILL, ln, free_details v,
             some ((emitReads ln r.operation r.reads
               (emitWrites ln r.operation r.writes (opsGo lines pre [] 0).2.1
                 (opsGo lines pre [] 0).2.2).2.2).2 + 1)⟩] := by
    simp only [lineBatch, hfree]
  set A := (opsGo lines pre [] 0).1 with hA
  set W := (emitWrites ln r.operation r.writes (opsGo lines pre [] 0).2.1
    (opsGo lines pre [] 0).2.2).1 with hW
  set R := (emitReads ln r.operation r.reads
    (emitWrites ln r.operation r.writes (opsGo lines pre [] 0).2.1
      (opsGo lines pre [] 0).2.2).2.2).1 with hR
  have hbatchlen :
      (lineBatch lines ln r (opsGo lines pre [] 0).2.1 (opsGo lines pre [] 0).2.2).1.length =
        W.length + R.length + 1 := by
    rw [hbatch]
    simp
    omega
  refine ⟨A.length + (W.length + R.length), ?_, ?_⟩
  · unfold build_operation_sequence
    rw [viewAt_patchLast]
    unfold viewAt
    rw [hraw, List.getElem?_append_right (by omega), Nat.add_sub_cancel_left,
      List.getElem?_append_left (by omega), hbatch,
      List.getElem?_append_right (by simp)]
    simp [opView]
  · intro j w2 k2 d2 hj hk
    unfold build_operation_sequence at hj
    rw [viewAt_patchLast] at hj
    unfold viewAt at hj
    rw [hraw] at hj
    cases hjo : ((opsGo lines (pre ++ (ln, r) :: post) [] 0).1)[j]? with
    | none =>
      rw [hraw] at hjo
      rw [hjo] at hj
      simp at hj
    | some o =>
      rw [hraw] at hjo
      rw [hjo] at hj
      simp only [Option.map_some', Option.some_inj] at hj
      have holine : o.line_number = ln := by
        have := congrArg (fun q => q.2.2.1) hj
        simpa [opView] using this
      have hokind : o.operation = k2 := by
        have := congrArg (fun q => q.2.1) hj
        simpa [opView] using this
      by_cases hjA : j < A.length
      · exfalso
        rw [List.getElem?_append_left hjA] at hjo
        have homem : o ∈ A := memOfGetElemQ hjo
        obtain ⟨p, hp, hpl⟩ := opsGo_line_numbers lines pre [] 0 o homem
        exact hndparts p hp (by rw [← hpl, holine])
      · rw [List.getElem?_append_right (Nat.le_of_not_lt hjA)] at hjo
        by_cases hjB : j - A.length <
            (lineBatch lines ln r (opsGo lines pre [] 0).2.1 (opsGo lines pre [] 0).2.2).1.length
        · rw [List.getElem?_append_left hjB] at hjo
          have hjne : j - A.length ≠ W.length + R.length := by
            intro hEq
            rw [hbatch, hEq] at hjo
            rw [List.getElem?_append_right (by simp)] at hjo
            simp at hjo
            have hoK : o.operation = OpKind.KILL := by rw [← hjo]
            rcases hk with hk | hk
            · rw [hoK, hk] at hokind
              exact absurd hokind (by decide)
            · rw [hoK, hk] at hokind
              exact absurd hokind (by decide)
          rw [hbatchlen] at hjB
          omega
        · exfalso
          rw [List.getElem?_append_right (Nat.le_of_not_lt hjB)] at hjo
          have homem : o ∈ (opsGo lines post
              (lineBatch lines ln r (opsGo lines pre [] 0).2.1 (opsGo lines pre [] 0).2.2).2.1
              (lineBatch lines ln r (opsGo lines pre [] 0).2.1
                (opsGo lines pre [] 0).2.2).2.2).1 :=
            memOfGetElemQ hjo
          obtain ⟨p, hp, hpl⟩ := opsGo_line_numbers lines post _ _ o homem
          exact hndpost p hp (by rw [← hpl, holine])

/-- Witness for C4 at a concrete `free(p);` line. -/
theorem claim_C4_free_kill_last_witness :
    ∃ i, viewAt (build_operation_sequence
        [(1, ⟨["p"], [], "Function call: free()"⟩)] ["free(p);"]) i =
          some ("p", OpKind.KILL, 1, free_details "p") ∧
      ∀ j w2 k2 d2, viewAt (build_operation_sequence
        [(1, ⟨["p"], [], "Function call: free()"⟩)] ["free(p);"]) j = some (w2, k2, 1, d2) →
        (k2 = OpKind.WRITE ∨ k2 = OpKind.READ) → j < i :=
  claim_C4_free_kill_last [(1, ⟨["p"], [], "Function call: free()"⟩)] ["free(p);"] 1
    ⟨["p"], [], "Function call: free()"⟩ "p" (by decide) (by decide) (by decide)

/-! ### Reaching-definition lemmas (claim C5) -/

theorem latestDefScan_none (ln : Nat) :
    ∀ (defs : List (Nat × String)), (∀ e ∈ defs.map Prod.fst, ¬e < ln) →
      latestDefScan ln defs none = none := by
  intro defs
  induction defs with
  | nil => intro _; rfl
  | cons d rest ih =>
    intro h
    have hd : ¬d.1 < ln := h d.1 (by simp)
    simp only [latestDefScan, if_neg hd]
    exact ih (fun e he => h e (by simp [he]))

theorem latestDefScan_some_acc (ln : Nat) :
    ∀ (defs : List (Nat × String)) (c : Nat),
      ∃ d, latestDefScan ln defs (some c) = some d := by
  intro defs
  induction defs with
  | nil => intro c; exact ⟨c, rfl⟩
  | cons q rest ih =>
    intro c
    simp only [latestDefScan]
    by_cases hq : q.1 < ln
    · rw [if_pos hq]
      by_cases hgt : q.1 > c
      · rw [if_pos hgt]; exact ih q.1
      · rw [if_neg hgt]; exact ih c
    · rw [if_neg hq]; exact ih c

theorem latestDefScan_isSome (ln : Nat) :
    ∀ (defs : List (Nat × String)), (∃ e ∈ defs.map Prod.fst, e < ln) →
      ∃ d, latestDefScan ln defs none = some d := by
  intro defs
  induction defs with
  | nil => intro h; simp at h
  | cons q rest ih =>
    intro h
    simp only [latestDefScan]
    by_cases hq : q.1 < ln
    · rw [if_pos hq]
      exact latestDefScan_some_acc ln rest q.1
    · rw [if_neg hq]
      obtain ⟨e, he, helt⟩ := h
      rw [List.map_cons] at he
      rcases List.mem_cons.mp he with he1 | he2
      · exact absurd (he1 ▸ helt) hq
      · exact ih ⟨e, he2, helt⟩

theorem latestDefScan_max (ln : Nat) :
    ∀ (defs : List (Nat × String)) (acc : Option Nat) (d : Nat),
      latestDefScan ln defs acc = some d →
      (acc = some d ∨ (d ∈ defs.map Prod.fst ∧ d < ln)) ∧
        (∀ e ∈ defs.map Prod.fst, e < ln → e ≤ d) ∧
        (∀ c, acc = some c → c ≤ d) := by
  intro defs
  induction defs with
  | nil =>
    intro acc d h
    simp only [latestDefScan] at h
    refine ⟨Or.inl h, by simp, ?_⟩
    intro c hc
    rw [hc] at h
    simp at h
    omega
  | cons q rest ih =>
    intro acc d h
    cases acc with
    | none =>
      simp only [latestDefScan] at h
      by_cases hq : q.1 < ln
      · rw [if_pos hq] at h
        obtain ⟨h1, h2, h3⟩ := ih _ _ h
        have hqd : q.1 ≤ d := h3 q.1 rfl
        refine ⟨?_, ?_, ?_⟩
        · rcases h1 with h1 | h1
          · simp only [Option.some_inj] at h1
            exact Or.inr ⟨by rw [List.map_cons]; exact List.mem_cons.mpr (Or.inl h1.symm),
              by omega⟩
          · exact Or.inr ⟨by rw [List.map_cons]; exact List.mem_cons.mpr (Or.inr h1.1), h1.2⟩
        · intro e he helt
          rw [List.map_cons] at he
          rcases List.mem_cons.mp he with he1 | he2
          · omega
          · exact h2 e he2 helt
        · intro c hc
          simp at hc
      · rw [if_neg hq] at h
        obtain ⟨h1, h2, h3⟩ := ih _ _ h
        refine ⟨?_, ?_, ?_⟩
        · rcases h1 with h1 | h1
          · simp at h1
          · exact Or.inr ⟨by rw [List.map_cons]; exact List.mem_cons.mpr (Or.inr h1.1), h1.2⟩
        · intro e he helt
          rw [List.map_cons] at he
          rcases List.mem_cons.mp he with he1 | he2
          · exact absurd (he1 ▸ helt) hq
          · exact h2 e he2 helt
        · intro c hc
          simp at hc
    | some cur =>
      simp only [latestDefScan] at h
      by_cases hq : q.1 < ln
      · rw [if_pos hq] at h
        by_cases hgt : q.1 > cur
        · rw [if_pos hgt] at h
          obtain ⟨h1, h2, h3⟩ := ih _ _ h
          have hqd : q.1 ≤ d := h3 q.1 rfl
          refine ⟨?_, ?_, ?_⟩
          · rcases h1 with h1 | h1
            · simp only [Option.some_inj] at h1
              exact Or.inr ⟨by rw [List.map_cons]; exact List.mem_cons.mpr (Or.inl h1.symm),
                by omega⟩
            · exact Or.inr ⟨by rw [List.map_cons]; exact List.mem_cons.mpr (Or.inr h1.1), h1.2⟩
          · intro e he helt
            rw [List.map_cons] at he
            rcases List.mem_cons.mp he with he1 | he2
            · omega
            · exact h2 e he2 helt
          · intro c hc
            simp only [Option.some_inj] at hc
            omega
        · rw [if_neg hgt] at h
          obtain ⟨h1, h2, h3⟩ := ih _ _ h
          have hcd : cur ≤ d := h3 cur rfl
          refine ⟨?_, ?_, ?_⟩
          · rcases h1 with h1 | h1
            · exact Or.inl h1
            · exact Or.inr ⟨by rw [List.map_cons]; exact List.mem_cons.mpr (Or.inr h1.1), h1.2⟩
          · intro e he helt
            rw [List.map_cons] at he
            rcases List.mem_cons.mp he with he1 | he2
            · omega
            · exact h2 e he2 helt
          · intro c hc
            simp only [Option.some_inj] at hc
            omega
      · rw [if_neg hq] at h
        obtain ⟨h1, h2, h3⟩ := ih _ _ h
        have hcd : cur ≤ d := h3 cur rfl
        refine ⟨?_, ?_, ?_⟩
        · rcases h1 with h1 | h1
          · exact Or.inl h1
          · exact Or.inr ⟨by rw [List.map_cons]; exact List.mem_cons.mpr (Or.inr h1.1), h1.2⟩
        · intro e he helt
          rw [List.map_cons] at he
          rcases List.mem_cons.mp he with he1 | he2
          · exact absurd (he1 ▸ helt) hq
          · exact h2 e he2 helt
        · intro c hc
          simp only [Option.some_inj] at hc
          omega

/-- C5: a read variable `v` at line `ln` gets a reaching-definitions entry
exactly when some recorded definition line of `v` lies strictly below `ln`,
and the entry references the nearest preceding definition (definition lines
produced by the analyzer are 1-based, which the hypothesis `wf` records). -/
theorem claim_C5_reaching_definitions
    (vt : List (String × VarInfo)) (la : List (Nat × LineRec))
    (ln : Nat) (r : LineRec) (v : String)
    (hmem : (ln, r) ∈ la) (hv : v ∈ r.reads)
    (wf : ∀ p ∈ vt, ∀ q ∈ p.2.definitions, 1 ≤ q.1) :
    ((ln, r.reads.filterMap (reachEntry vt ln)) ∈ compute_reaching_definitions vt la) ∧
      (HasDefBefore vt v ln →
        ∃ d, IsNearestDefBefore vt v ln d ∧
          reachEntry vt ln v = some ("Line " ++ toString d ++ " (defines " ++ v ++ ")")) ∧
      (¬HasDefBefore vt v ln → reachEntry vt ln v = none) := by
  refine ⟨?_, ?_, ?_⟩
  · unfold compute_reaching_definitions
    exact List.mem_map_of_mem _ hmem
  · intro hdef
    obtain ⟨p, hfind, e, he, helt⟩ := hdef
    obtain ⟨d, hd⟩ := latestDefScan_isSome ln p.2.definitions ⟨e, he, helt⟩
    obtain ⟨h1, h2, _⟩ := latestDefScan_max ln p.2.definitions none d hd
    rcases h1 with h1 | h1
    · simp at h1
    · have hd1 : 1 ≤ d := by
        obtain ⟨q, hq, hq1⟩ := List.mem_map.mp h1.1
        have := wf p (List.mem_of_find?_eq_some hfind) q hq
        omega
      refine ⟨d, ⟨p, hfind, h1.1, h1.2, h2⟩, ?_⟩
      have hre : reachEntry vt ln v =
          (match latestDefScan ln p.2.definitions none with
           | some d => if d ≠ 0 then some ("Line " ++ toString d ++ " (defines " ++ v ++ ")")
                       else none
           | none => none) := by
        unfold reachEntry
        rw [hfind]
      rw [hre, hd]
      have hdne : d ≠ 0 := by omega
      show (if d ≠ 0 then some ("Line " ++ toString d ++ " (defines " ++ v ++ ")")
            else none) = some ("Line " ++ toString d ++ " (defines " ++ v ++ ")")
      rw [if_pos hdne]
  · intro hnone
    unfold reachEntry
    cases hfind : vt.find? (fun q => q.1 == v) with
    | none => rfl
    | some p =>
      have hno : ∀ e ∈ p.2.definitions.map Prod.fst, ¬e < ln := by
        intro e he helt
        exact hnone ⟨p, hfind, e, he, helt⟩
      show (match latestDefScan ln p.2.definitions none with
            | some d =>
              if d ≠ 0 then some ("Line " ++ toString d ++ " (defines " ++ v ++ ")") else none
            | none => none) = none
      rw [latestDefScan_none ln p.2.definitions hno]

/-- Witness for C5 at a concrete variable table and line. -/
theorem claim_C5_reaching_definitions_witness :
    ((3, (⟨["x"], [], ""⟩ : LineRec).reads.filterMap
        (reachEntry [("x", ⟨[(1, "d1"), (2, "d2")], []⟩)] 3)) ∈
      compute_reaching_definitions [("x", ⟨[(1, "d1"), (2, "d2")], []⟩)]
        [(3, ⟨["x"], [], ""⟩)]) ∧
      (HasDefBefore [("x", ⟨[(1, "d1"), (2, "d2")], []⟩)] "x" 3 →
        ∃ d, IsNearestDefBefore [("x", ⟨[(1, "d1"), (2, "d2")], []⟩)] "x" 3 d ∧
          reachEntry [("x", ⟨[(1, "d1"), (2, "d2")], []⟩)] 3 "x" =
            some ("Line " ++ toString d ++ " (defines " ++ "x" ++ ")")) ∧
      (¬HasDefBefore [("x", ⟨[(1, "d1"), (2, "d2")], []⟩)] "x" 3 →
        reachEntry [("x", ⟨[(1, "d1"), (2, "d2")], []⟩)] 3 "x" = none) :=
  claim_C5_reaching_definitions [("x", ⟨[(1, "d1"), (2, "d2")], []⟩)]
    [(3, ⟨["x"], [], ""⟩)] 3 ⟨["x"], [], ""⟩ "x" (by decide) (by decide) (by decide)


/-! ### Dependency-map lemmas (claim C7) -/

theorem getDep_setDep_self (w : String) (l : List String) :
    ∀ deps : List (String × List String),
      hasKeyB deps w = true → getDep (setDep deps w l) w = l := by
  intro deps
  induction deps with
  | nil => intro h; simp [hasKeyB] at h
  | cons p rest ih =>
    intro h
    by_cases hp : p.1 = w
    · simp [setDep, getDep, hp]
    · simp only [setDep, if_neg hp, getDep]
      apply ih
      simp only [hasKeyB, Bool.or_eq_true] at h
      rcases h with h | h
      · exact absurd (by simpa using h) hp
      · exact h

theorem getDep_setDep_ne (w u : String) (l : List String) (h : w ≠ u) :
    ∀ deps : List (String × List String), getDep (setDep deps w l) u = getDep deps u := by
  intro deps
  induction deps with
  | nil => rfl
  | cons p rest ih =>
    by_cases hp : p.1 = w
    · have hpu : ¬p.1 = u := by rw [hp]; exact h
      simp [setDep, getDep, hp, hpu, h]
    · simp only [setDep, if_neg hp, getDep]
      by_cases hpu : p.1 = u
      · rw [if_pos hpu, if_pos hpu]
      · rw [if_neg hpu, if_neg hpu]
        exact ih

theorem hasKeyB_setDep (w u : String) (l : List String) :
    ∀ deps : List (String × List String), hasKeyB (setDep deps w l) u = hasKeyB deps u := by
  intro deps
  induction deps with
  | nil => rfl
  | cons p rest ih =>
    by_cases hp : p.1 = w
    · simp [setDep, hasKeyB, hp]
    · simp only [setDep, if_neg hp, hasKeyB]
      rw [ih]

theorem getDep_append_newKey (w u : String) :
    ∀ deps : List (String × List String), getDep (deps ++ [(w, [])]) u = getDep deps u := by
  intro deps
  induction deps with
  | nil =>
    by_cases hwu : w = u
    · simp [getDep, hwu]
    · simp [getDep, hwu]
  | cons p rest ih =>
    by_cases hpu : p.1 = u
    · simp [getDep, hpu]
    · simp only [List.cons_append, getDep, if_neg hpu]
      exact ih

theorem getDep_ensureDep (w u : String) (deps : List (String × List String)) :
    getDep (ensureDep deps w) u = getDep deps u := by
  unfold ensureDep
  by_cases h : hasKeyB deps w = true
  · rw [if_pos h]
  · rw [if_neg h]
    exact getDep_append_newKey w u deps

theorem hasKeyB_append (u : String) :
    ∀ a b : List (String × List String),
      hasKeyB (a ++ b) u = (hasKeyB a u || hasKeyB b u) := by
  intro a b
  induction a with
  | nil => simp [hasKeyB]
  | cons p rest ih =>
    show (p.1 == u || hasKeyB (rest ++ b) u) = _
    rw [ih]
    show _ = ((p.1 == u || hasKeyB rest u) || hasKeyB b u)
    rw [Bool.or_assoc]

theorem hasKeyB_ensureDep_self (deps : List (String × List String)) (w : String) :
    hasKeyB (ensureDep deps w) w = true := by
  unfold ensureDep
  by_cases h : hasKeyB deps w = true
  · rw [if_pos h]
    exact h
  · rw [if_neg h]
    rw [hasKeyB_append]
    simp [hasKeyB]

/-- Behaviour of the read loop of `build_dependencies` for one written variable. -/
theorem addDepReads_spec (w : String) :
    ∀ (rvs : List String) (deps : List (String × List String)),
      hasKeyB deps w = true →
      ((∀ u, hasKeyB (addDepReads w rvs deps) u = hasKeyB deps u) ∧
        (∀ u, u ≠ w → getDep (addDepReads w rvs deps) u = getDep deps u) ∧
        (∀ v, v ∈ getDep (addDepReads w rvs deps) w ↔
          v ∈ getDep deps w ∨ (v ∈ rvs ∧ v ≠ w)) ∧
        ((getDep deps w).Nodup → w ∉ getDep deps w →
          (getDep (addDepReads w rvs deps) w).Nodup ∧
            w ∉ getDep (addDepReads w rvs deps) w)) := by
  intro rvs
  induction rvs with
  | nil =>
    intro deps _
    refine ⟨fun u => rfl, fun u _ => rfl, ?_, fun h1 h2 => ⟨h1, h2⟩⟩
    intro v
    simp [addDepReads]
  | cons rv rvs ih =>
    intro deps hkey
    by_cases hC : rv ≠ w ∧ rv ∉ getDep deps w
    · have hkey2 : hasKeyB (setDep deps w (getDep deps w ++ [rv])) w = true := by
        rw [hasKeyB_setDep]
        exact hkey
      obtain ⟨ihk, ihne, ihmem, ihnd⟩ := ih (setDep deps w (getDep deps w ++ [rv])) hkey2
      have hstep : addDepReads w (rv :: rvs) deps =
          addDepReads w rvs (setDep deps w (getDep deps w ++ [rv])) := by
        simp only [addDepReads, if_pos hC]
      have hgw : getDep (setDep deps w (getDep deps w ++ [rv])) w = getDep deps w ++ [rv] :=
        getDep_setDep_self w _ deps hkey
      refine ⟨?_, ?_, ?_, ?_⟩
      · intro u
        rw [hstep, ihk u, hasKeyB_setDep]
      · intro u hu
        rw [hstep, ihne u hu, getDep_setDep_ne w u _ (fun he => hu he.symm)]
      · intro v
        rw [hstep, ihmem v, hgw]
        constructor
        · rintro (hvx | ⟨hvr, hvw⟩)
          · rcases List.mem_append.mp hvx with hvx | hvx
            · exact Or.inl hvx
            · have : v = rv := by simpa using hvx
              subst this
              exact Or.inr ⟨List.mem_cons_self _ _, hC.1⟩
          · exact Or.inr ⟨List.mem_cons_of_mem _ hvr, hvw⟩
        · rintro (hvx | ⟨hvr, hvw⟩)
          · exact Or.inl (List.mem_append.mpr (Or.inl hvx))
          · rcases List.mem_cons.mp hvr with rfl | hvr2
            · exact Or.inl (List.mem_append.mpr (Or.inr (by simp)))
            · exact Or.inr ⟨hvr2, hvw⟩
      · intro hnd hself
        rw [hstep]
        have hnd2 : (getDep (setDep deps w (getDep deps w ++ [rv])) w).Nodup := by
          rw [hgw]
          rw [List.nodup_append]
          refine ⟨hnd, List.nodup_singleton rv, ?_⟩
          intro a ha hb
          have hab : a = rv := by simpa using hb
          rw [hab] at ha
          exact hC.2 ha
        have hself2 : w ∉ getDep (setDep deps w (getDep deps w ++ [rv])) w := by
          rw [hgw]
          intro hmem
          rcases List.mem_append.mp hmem with hmem | hmem
          · exact hself hmem
          · have hwrv : w = rv := by simpa using hmem
            exact hC.1 hwrv.symm
        exact ihnd hnd2 hself2
    · have hstep : addDepReads w (rv :: rvs) deps = addDepReads w rvs deps := by
        simp only [addDepReads, if_neg hC]
      obtain ⟨ihk, ihne, ihmem, ihnd⟩ := ih deps hkey
      have hCn : rv = w ∨ rv ∈ getDep deps w := by
        by_cases h1 : rv = w
        · exact Or.inl h1
        · by_cases h2 : rv ∈ getDep deps w
          · exact Or.inr h2
          · exact absurd ⟨h1, h2⟩ hC
      refine ⟨fun u => by rw [hstep, ihk u], fun u hu => by rw [hstep, ihne u hu], ?_, ?_⟩
      · intro v
        rw [hstep, ihmem v]
        constructor
        · rintro (hvx | ⟨hvr, hvw⟩)
          · exact Or.inl hvx
          · exact Or.inr ⟨List.mem_cons_of_mem _ hvr, hvw⟩
        · rintro (hvx | ⟨hvr, hvw⟩)
          · exact Or.inl hvx
          · rcases List.mem_cons.mp hvr with rfl | hvr2
            · rcases hCn with hCn | hCn
              · exact absurd hCn hvw
              · exact Or.inl hCn
            · exact Or.inr ⟨hvr2, hvw⟩
      · intro hnd hself
        rw [hstep]
        exact ihnd hnd hself

/-- Behaviour of the write loop of `build_dependencies` for one line record. -/
theorem addDepWrites_spec (a : LineRec) :
    ∀ (ws : List String) (deps : List (String × List String)),
      (∀ u v, v ∈ getDep (addDepWrites a ws deps) u ↔
        v ∈ getDep deps u ∨ (u ∈ ws ∧ v ∈ a.reads ∧ v ≠ u)) ∧
      ((∀ u, u ∉ getDep deps u ∧ (getDep deps u).Nodup) →
        ∀ u, u ∉ getDep (addDepWrites a ws deps) u ∧
          (getDep (addDepWrites a ws deps) u).Nodup) := by
  intro ws
  induction ws with
  | nil =>
    intro deps
    exact ⟨fun u v => by simp [addDepWrites], fun h => h⟩
  | cons w ws ih =>
    intro deps
    have hkey1 : hasKeyB (ensureDep deps w) w = true := hasKeyB_ensureDep_self deps w
    obtain ⟨rk, rne, rmem, rnd⟩ := addDepReads_spec w a.reads (ensureDep deps w) hkey1
    obtain ⟨imem, ind⟩ := ih (addDepReads w a.reads (ensureDep deps w))
    constructor
    · intro u v
      simp only [addDepWrites]
      rw [imem u v]
      by_cases huw : u = w
      · subst huw
        rw [rmem v, getDep_ensureDep]
        constructor
        · rintro ((hv | ⟨hv1, hv2⟩) | ⟨_, hv1, hv2⟩)
          · exact Or.inl hv
          · exact Or.inr ⟨List.mem_cons_self _ _, hv1, hv2⟩
          · exact Or.inr ⟨List.mem_cons_self _ _, hv1, hv2⟩
        · rintro (hv | ⟨_, hv1, hv2⟩)
          · exact Or.inl (Or.inl hv)
          · exact Or.inl (Or.inr ⟨hv1, hv2⟩)
      · rw [rne u huw, getDep_ensureDep]
        constructor
        · rintro (hv | ⟨hv0, hv1, hv2⟩)
          · exact Or.inl hv
          · exact Or.inr ⟨List.mem_cons_of_mem _ hv0, hv1, hv2⟩
        · rintro (hv | ⟨hv0, hv1, hv2⟩)
          · exact Or.inl hv
          · rcases List.mem_cons.mp hv0 with rfl | hv0b
            · exact absurd rfl huw
            · exact Or.inr ⟨hv0b, hv1, hv2⟩
    · intro H
      have H1 : ∀ u, u ∉ getDep (ensureDep deps w) u ∧ (getDep (ensureDep deps w) u).Nodup := by
        intro u
        rw [getDep_ensureDep]
        exact H u
      have H2 : ∀ u, u ∉ getDep (addDepReads w a.reads (ensureDep deps w)) u ∧
          (getDep (addDepReads w a.reads (ensureDep deps w)) u).Nodup := by
        intro u
        by_cases huw : u = w
        · subst huw
          obtain ⟨hnd, hself⟩ := rnd (H1 u).2 (H1 u).1
          exact ⟨hself, hnd⟩
        · rw [rne u huw]
          exact H1 u
      simp only [addDepWrites]
      exact ind H2

/-- C7 core: the dependency entry of `w` contains exactly the variables read on
lines where `w` is written (excluding `w` itself), without duplicates and never
containing `w`. -/
theorem claim_C7_dependency_no_self
    (la : List (Nat × LineRec)) (w v : String) :
    w ∉ getDep (build_dependencies la) w ∧
      (getDep (build_dependencies la) w).Nodup ∧
      (v ∈ getDep (build_dependencies la) w ↔
        ∃ p ∈ la, w ∈ p.2.writes ∧ v ∈ p.2.reads ∧ v ≠ w) := by
  have main : ∀ (l2 : List (Nat × LineRec)) (deps : List (String × List String)),
      (∀ u x, x ∈ getDep (l2.foldl (fun d p => addDepWrites p.2 p.2.writes d) deps) u ↔
        x ∈ getDep deps u ∨ ∃ p ∈ l2, u ∈ p.2.writes ∧ x ∈ p.2.reads ∧ x ≠ u) ∧
      ((∀ u, u ∉ getDep deps u ∧ (getDep deps u).Nodup) →
        ∀ u, u ∉ getDep (l2.foldl (fun d p => addDepWrites p.2 p.2.writes d) deps) u ∧
          (getDep (l2.foldl (fun d p => addDepWrites p.2 p.2.writes d) deps) u).Nodup) := by
    intro l2
    induction l2 with
    | nil => exact fun deps => ⟨fun u x => by simp, fun h => h⟩
    | cons p rest ihl =>
      intro deps
      obtain ⟨wmem, wnd⟩ := addDepWrites_spec p.2 p.2.writes deps
      obtain ⟨imem, ind⟩ := ihl (addDepWrites p.2 p.2.writes deps)
      constructor
      · intro u x
        simp only [List.foldl_cons]
        rw [imem u x, wmem u x]
        constructor
        · rintro ((hx | ⟨h1, h2, h3⟩) | ⟨q, hq, h1, h2, h3⟩)
          · exact Or.inl hx
          · exact Or.inr ⟨p, List.mem_cons_self _ _, h1, h2, h3⟩
          · exact Or.inr ⟨q, List.mem_cons_of_mem _ hq, h1, h2, h3⟩
        · rintro (hx | ⟨q, hq, h1, h2, h3⟩)
          · exact Or.inl (Or.inl hx)
          · rcases List.mem_cons.mp hq with rfl | hq2
            · exact Or.inl (Or.inr ⟨h1, h2, h3⟩)
            · exact Or.inr ⟨q, hq2, h1, h2, h3⟩
      · intro H
        simp only [List.foldl_cons]
        exact ind (wnd H)
  have hbase : ∀ u : String, u ∉ getDep [] u ∧ (getDep [] u).Nodup := by
    intro u
    simp [getDep]
  obtain ⟨hmem, hnd⟩ := main la []
  refine ⟨(hnd hbase w).1, (hnd hbase w).2, ?_⟩
  unfold build_dependencies
  rw [hmem w v]
  simp [getDep]

/-! ### Line-record bookkeeping of `analyze_variables` (claims C4/C6) -/

theorem analyzeGo_count_lt :
    ∀ (lines : List String) (ln : Nat) (st : AnalyzerState) (k : Nat), k < ln →
      (analyzeGo lines ln st).line_analysis.countP (fun p => p.1 == k) =
        st.line_analysis.countP (fun p => p.1 == k) := by
  intro lines
  induction lines with
  | nil => intro ln st k _; rfl
  | cons l rest ih =>
    intro ln st k hk
    simp only [analyzeGo]
    cases hc : classify l with
    | skip =>
      rw [ih (ln + 1) st k (by omega)]
    | record reads writes op evs =>
      rw [ih (ln + 1) _ k (by omega)]
      simp only [List.countP_append]
      have : ((ln, (⟨pyDedup reads, pyDedup writes, op⟩ : LineRec)).1 == k) = false := by
        simp
        omega
      simp [List.countP_cons, this]

theorem analyzeGo_count :
    ∀ (lines : List String) (ln : Nat) (st : AnalyzerState) (k : Nat) (l : String),
      lines.get? (k - ln) = some l → ln ≤ k →
      st.line_analysis.countP (fun p => p.1 == k) = 0 →
      (analyzeGo lines ln st).line_analysis.countP (fun p => p.1 == k) =
        (if classify l = Classified.skip then 0 else 1) := by
  intro lines
  induction lines with
  | nil => intro ln st k l hget _ _; simp at hget
  | cons l0 rest ih =>
    intro ln st k l hget hk h0
    by_cases hkl : k = ln
    · subst hkl
      rw [Nat.sub_self] at hget
      simp at hget
      subst hget
      simp only [analyzeGo]
      cases hc : classify l0 with
      | skip =>
        rw [analyzeGo_count_lt rest (k + 1) st k (by omega), h0]
        simp
      | record reads writes op evs =>
        rw [analyzeGo_count_lt rest (k + 1) _ k (by omega)]
        simp only [List.countP_append, h0]
        simp [List.countP_cons]
    · have hlt : ln < k := by omega
      have hget2 : rest.get? (k - (ln + 1)) = some l := by
        have : k - ln = (k - (ln + 1)) + 1 := by omega
        rw [this] at hget
        simpa using hget
      simp only [analyzeGo]
      cases hc : classify l0 with
      | skip => exact ih (ln + 1) st k l hget2 (by omega) h0
      | record reads writes op evs =>
        refine ih (ln + 1) _ k l hget2 (by omega) ?_
        simp only [List.countP_append, h0]
        have : ((ln, (⟨pyDedup reads, pyDedup writes, op⟩ : LineRec)).1 == k) = false := by
          simp
          omega
        simp [List.countP_cons, this]

theorem analyzeGo_mono :
    ∀ (lines : List String) (ln : Nat) (st : AnalyzerState) (p : Nat × LineRec),
      p ∈ st.line_analysis → p ∈ (analyzeGo lines ln st).line_analysis := by
  intro lines
  induction lines with
  | nil => intro ln st p hp; exact hp
  | cons l rest ih =>
    intro ln st p hp
    simp only [analyzeGo]
    cases hc : classify l with
    | skip => exact ih (ln + 1) st p hp
    | record reads writes op evs =>
      refine ih (ln + 1) _ p ?_
      simp only []
      exact List.mem_append.mpr (Or.inl hp)

theorem analyzeGo_mem :
    ∀ (lines : List String) (ln : Nat) (st : AnalyzerState) (k : Nat) (l : String)
      (reads writes : List String) (op : String) (evs : List (String × String)),
      lines.get? (k - ln) = some l → ln ≤ k →
      classify l = Classified.record reads writes op evs →
      (k, (⟨pyDedup reads, pyDedup writes, op⟩ : LineRec)) ∈
        (analyzeGo lines ln st).line_analysis := by
  intro lines
  induction lines with
  | nil => intro ln st k l r w o e hget _ _; simp at hget
  | cons l0 rest ih =>
    intro ln st k l r w o e hget hk hc
    by_cases hkl : k = ln
    · subst hkl
      rw [Nat.sub_self] at hget
      simp at hget
      subst hget
      simp only [analyzeGo, hc]
      refine analyzeGo_mono rest (k + 1) _ _ ?_
      simp only []
      exact List.mem_append.mpr (Or.inr (by simp))
    · have hget2 : rest.get? (k - (ln + 1)) = some l := by
        have : k - ln = (k - (ln + 1)) + 1 := by omega
        rw [this] at hget
        simpa using hget
      simp only [analyzeGo]
      cases hc0 : classify l0 with
      | skip => exact ih (ln + 1) st k l r w o e hget2 (by omega) hc
      | record r0 w0 o0 e0 => exact ih (ln + 1) _ k l r w o e hget2 (by omega) hc

theorem classify_skip_iff (l : String) :
    classify l = Classified.skip ↔ (skipGuard l || ruleFuncDef l) = true := by
  unfold classify
  by_cases h1 : skipGuard l = true
  · simp [h1]
  · rw [if_neg h1]
    by_cases h2 : ruleFuncDef l = true
    · simp [h1, h2]
    · rw [if_neg h2]
      rcases hb : classifyBody l with ⟨r, w, o, e⟩
      simp [h1, h2]

theorem classifyBody_noRule (l : String) (h : noRuleMatches l = true) :
    classifyBody l = ([], [], "", []) := by
  unfold noRuleMatches at h
  simp only [Bool.and_eq_true, Bool.not_eq_true', Option.isNone_iff_eq_none] at h
  obtain ⟨⟨⟨⟨⟨⟨⟨h1, h2⟩, h3⟩, h4⟩, h5⟩, h6⟩, h7⟩, h8⟩ := h
  unfold classifyBody
  rw [h2, h3, h4, h5, h6, h7, h8]
  rfl

/-- C6 (amended): every line that is not blank/comment/preprocessor AND not a
function-definition line gets exactly one LineRecord; function-definition lines
are additionally skipped (`continue` before the record is stored); lines matched
by no classifier rule receive the empty record. -/
theorem claim_C6_one_record_per_analyzable_line
    (lines : List String) (k : Nat) (l : String)
    (hget : lines.get? (k - 1) = some l) (hk : 1 ≤ k) :
    ((analyze_variables lines).line_analysis.countP (fun p => p.1 == k) =
      if (skipGuard l || ruleFuncDef l) = true then 0 else 1) ∧
    ((skipGuard l || ruleFuncDef l) = false → noRuleMatches l = true →
      (k, (⟨[], [], ""⟩ : LineRec)) ∈ (analyze_variables lines).line_analysis) := by
  constructor
  · unfold analyze_variables
    rw [analyzeGo_count lines 1 ⟨[], []⟩ k l hget hk (by simp)]
    by_cases hs : (skipGuard l || ruleFuncDef l) = true
    · rw [if_pos hs, if_pos ((classify_skip_iff l).mpr hs)]
    · rw [if_neg hs, if_neg (fun hc => hs ((classify_skip_iff l).mp hc))]
  · intro hng hnr
    have hb := classifyBody_noRule l hnr
    have hng2 : skipGuard l = false ∧ ruleFuncDef l = false := by
      rcases Bool.or_eq_false_iff.mp hng with ⟨ha, hbb⟩
      exact ⟨ha, hbb⟩
    have hcl : classify l = Classified.record [] [] "" [] := by
      unfold classify
      rw [if_neg (by simp [hng2.1]), if_neg (by simp [hng2.2]), hb]
    have hm := analyzeGo_mem lines 1 ⟨[], []⟩ k l [] [] "" [] hget hk hcl
    simpa [pyDedup] using hm

/-- Witness for the amended C6 at the unmatched line `}`. -/
theorem claim_C6_one_record_per_analyzable_line_witness :
    (((analyze_variables [cbraceS]).line_analysis.countP (fun p => p.1 == 1) =
      if (skipGuard cbraceS || ruleFuncDef cbraceS) = true then 0 else 1) ∧
      ((skipGuard cbraceS || ruleFuncDef cbraceS) = false → noRuleMatches cbraceS = true →
        (1, (⟨[], [], ""⟩ : LineRec)) ∈ (analyze_variables [cbraceS]).line_analysis)) :=
  claim_C6_one_record_per_analyzable_line [cbraceS] 1 cbraceS (by decide) (by decide)

/-- C6 counterexample: `int main() {` is neither blank nor a comment nor a
preprocessor line, yet the analyzer stores no LineRecord for it (the
function-definition rule `continue`s before the record is stored). -/
theorem claim_C6_counterexample :
    skipGuard "int main() \x7b" = false ∧
      (analyze_variables ["int main() \x7b"]).line_analysis = [] := by
  decide

/-- C4 counterexample: the raw line `// free(p);` contains the deallocation
pattern `free(p);`, but the comment line receives no LineRecord, so the
operation sequence of the whole program is empty — no KILL for `p` exists. -/
theorem claim_C4_counterexample :
    containsSub "// free(p);" "free(p);" = true ∧
      build_operation_sequence (analyze_variables ["// free(p);"]).line_analysis
        ["// free(p);"] = [] := by
  decide

theorem carveGo_fuel (lines : List String) :
    ∀ f1 f2 i bid, lines.length - i ≤ f1 → lines.length - i ≤ f2 →
      carveGo lines f1 i bid = carveGo lines f2 i bid := by
  intro f1
  induction f1 with
  | zero =>
    intro f2 i bid h1 h2
    cases f2 with
    | zero => rfl
    | succ g =>
      show [] = if lines.length ≤ i then [] else _
      rw [if_pos (by omega)]
  | succ f ih =>
    intro f2 i bid h1 h2
    cases f2 with
    | zero =>
      show (if lines.length ≤ i then [] else _) = []
      rw [if_pos (by omega)]
    | succ g =>
      show (if lines.length ≤ i then [] else _) = if lines.length ≤ i then [] else _
      by_cases hle : lines.length ≤ i
      · rw [if_pos hle, if_pos hle]
      · rw [if_neg hle, if_neg hle]
        split
        · rw [ih g _ _ (by omega) (by omega)]
        · rw [ih g _ _ (by omega) (by omega)]

theorem carve_unfold (lines : List String) (i bid : Nat) :
    carve lines i bid =
      if lines.length ≤ i then []
      else
        match carveStep (lines.getD i "") (pyStrip (lines.getD (i - 1) ""))
            (lines.drop (i + 1)) i lines.length bid with
        | (some b, extra) => b :: carve lines (i + 1 + extra) (bid + 1)
        | (none, extra) => carve lines (i + 1 + extra) bid := by
  unfold carve
  by_cases hle : lines.length ≤ i
  · have h0 : lines.length - i = 0 := by omega
    rw [h0, if_pos hle]
    rfl
  · obtain ⟨f, hf⟩ : ∃ f, lines.length - i = f + 1 := ⟨lines.length - i - 1, by omega⟩
    rw [hf]
    show (if lines.length ≤ i then [] else _) = _
    rw [if_neg hle, if_neg hle]
    split
    · exact congrArg _ (carveGo_fuel lines f _ _ _ (by omega) (by omega))
    · exact carveGo_fuel lines f _ _ _ (by omega) (by omega)

theorem carveStep_some_shape (line prev : String) (tail : List String) (i len bid : Nat)
    (b : Block) (extra : Nat) (h : carveStep line prev tail i len bid = (some b, extra)) :
    ∃ id sl el ls bt, b = create_block id sl el ls bt := by
  unfold carveStep at h
  by_cases c1 : (decide (pyStrip line = "") || pyStarts (pyStrip line) "#") = true
  · rw [if_pos c1] at h
    exact absurd h (by simp)
  · rw [if_neg c1] at h
    by_cases c2 : mainSig line = true
    · rw [if_pos c2] at h
      simp only [Prod.mk.injEq, Option.some.injEq] at h
      exact ⟨_, _, _, _, _, h.1.symm⟩
    · rw [if_neg c2] at h
      by_cases c3 : loopHdr line = true
      · rw [if_pos c3] at h
        simp only [Prod.mk.injEq, Option.some.injEq] at h
        exact ⟨_, _, _, _, _, h.1.symm⟩
      · rw [if_neg c3] at h
        by_cases c4 : ifHdr line = true
        · rw [if_pos c4] at h
          simp only [Prod.mk.injEq, Option.some.injEq] at h
          exact ⟨_, _, _, _, _, h.1.symm⟩
        · rw [if_neg c4] at h
          by_cases c5 : containsSub line "return" = true
          · rw [if_pos c5] at h
            cases hr : retLook tail with
            | some k =>
              rw [hr] at h
              simp only [Prod.mk.injEq, Option.some.injEq] at h
              exact ⟨_, _, _, _, _, h.1.symm⟩
            | none =>
              rw [hr] at h
              simp only [Prod.mk.injEq, Option.some.injEq] at h
              exact ⟨_, _, _, _, _, h.1.symm⟩
          · rw [if_neg c5] at h
            by_cases c6 : elseKw line = true
            · rw [if_pos c6] at h
              by_cases c6a : containsSub line obraceS = true
              · rw [if_pos c6a] at h
                by_cases c6b : 2 < (line :: (collectElse tail 1).1).length
                · rw [if_pos c6b] at h
                  simp only [Prod.mk.injEq, Option.some.injEq] at h
                  exact ⟨_, _, _, _, _, h.1.symm⟩
                · rw [if_neg c6b] at h
                  exact absurd h (by simp)
              · rw [if_neg c6a] at h
                by_cases c6c : i + 1 < len
                · rw [if_pos c6c] at h
                  simp only [Prod.mk.injEq, Option.some.injEq] at h
                  exact ⟨_, _, _, _, _, h.1.symm⟩
                · rw [if_neg c6c] at h
                  simp only [Prod.mk.injEq, Option.some.injEq] at h
                  exact ⟨_, _, _, _, _, h.1.symm⟩
            · rw [if_neg c6] at h
              by_cases c7 : (containsSub line obraceS && decide (0 < i) && prevKwTest prev) = true
              · rw [if_pos c7] at h
                by_cases c7a : (collectBrace tail).1 ≠ [] ∧
                    (((collectBrace tail).1.map pyStrip).filter
                      (fun x => x ≠ "" && !pyStarts x "//")) ≠ []
                · rw [if_pos c7a] at h
                  simp only [Prod.mk.injEq, Option.some.injEq] at h
                  exact ⟨_, _, _, _, _, h.1.symm⟩
                · rw [if_neg c7a] at h
                  exact absurd h (by simp)
              · rw [if_neg c7] at h
                by_cases c8 : (decide (pyStrip line ≠ "") && !pyStarts (pyStrip line) "//") = true
                · rw [if_pos c8] at h
                  by_cases c8a : (((line :: (collectRun2 tail).1).map pyStrip).filter
                      (fun x => x ≠ "" && !pyStarts x "//")) ≠ []
                  · rw [if_pos c8a] at h
                    simp only [Prod.mk.injEq, Option.some.injEq] at h
                    exact ⟨_, _, _, _, _, h.1.symm⟩
                  · rw [if_neg c8a] at h
                    exact absurd h (by simp)
                · rw [if_neg c8] at h
                  exact absurd h (by simp)

theorem carveGo_shape (lines : List String) :
    ∀ fuel i bid b, b ∈ carveGo lines fuel i bid →
      ∃ id sl el ls bt, b = create_block id sl el ls bt := by
  intro fuel
  induction fuel with
  | zero => intro i bid b hb; exact absurd hb (List.not_mem_nil b)
  | succ f ih =>
    intro i bid b hb
    by_cases hle : lines.length ≤ i
    · rw [show carveGo lines (f + 1) i bid = [] from by
        show (if lines.length ≤ i then [] else _) = []
        rw [if_pos hle]] at hb
      exact absurd hb (List.not_mem_nil b)
    · rw [show carveGo lines (f + 1) i bid =
          (match carveStep (lines.getD i "") (pyStrip (lines.getD (i - 1) ""))
              (lines.drop (i + 1)) i lines.length bid with
           | (some b2, extra) => b2 :: carveGo lines f (i + 1 + extra) (bid + 1)
           | (none, extra) => carveGo lines f (i + 1 + extra) bid) from by
        show (if lines.length ≤ i then [] else _) = _
        rw [if_neg hle]] at hb
      split at hb
      · rcases List.mem_cons.mp hb with rfl | hb2
        · rename_i b2 extra heq
          exact carveStep_some_shape _ _ _ _ _ _ _ _ heq
        · exact ih _ _ b hb2
      · exact ih _ _ b hb

theorem create_block_preview (bid sl el : Nat) (ls : List String) (bt : String) :
    (create_block bid sl el ls bt).code_preview =
      previewOfSpec (create_block bid sl el ls bt).lines := by
  show (create_block bid sl el ls bt).code_preview = previewOfSpec ls
  unfold create_block previewOfSpec
  split
  · rename_i heq
    simp only [heq]
  · rename_i a b heq
    simp only [heq]
    by_cases h : 50 < a.length
    · rw [if_pos h, if_neg (by omega)]
    · rw [if_neg h, if_pos (by omega)]

/-- C9 (amended): every block emitted by the partitioner carries as code
preview its first meaningful captured line, truncated to 47 characters plus
an ellipsis only when longer than 50 characters (not 47), and the brace
sentinel when no meaningful line exists. -/
theorem claim_C9_preview (lines : List String) (b : Block)
    (hb : b ∈ create_logical_blocks lines) :
    b.code_preview = previewOfSpec b.lines := by
  obtain ⟨id, sl, el, ls, bt, rfl⟩ := carveGo_shape lines (lines.length - 0) 0 0 b hb
  exact create_block_preview id sl el ls bt

theorem claim_C9_preview_witness :
    (⟨0, "ACTIVITY", 1, 1, ["x = 1;"], "x = 1;", []⟩ : Block) ∈ create_logical_blocks ["x = 1;"] ∧
      (⟨0, "ACTIVITY", 1, 1, ["x = 1;"], "x = 1;", []⟩ : Block).code_preview =
        previewOfSpec ["x = 1;"] :=
  ⟨by decide, claim_C9_preview ["x = 1;"] ⟨0, "ACTIVITY", 1, 1, ["x = 1;"], "x = 1;", []⟩ (by decide)⟩

set_option maxRecDepth 8000 in
/-- C9 counterexample: a 48-character line is longer than 47 characters, yet
its block preview is the whole line with no truncation (the code truncates
only above 50 characters). -/
theorem claim_C9_counterexample :
    (create_logical_blocks ["int abcdefghijklmnopqrstuvwxyz0123456789ab = 7;!"]).map
        Block.code_preview = ["int abcdefghijklmnopqrstuvwxyz0123456789ab = 7;!"] ∧
      47 < "int abcdefghijklmnopqrstuvwxyz0123456789ab = 7;!".length ∧
      "int abcdefghijklmnopqrstuvwxyz0123456789ab = 7;!" ≠
        "int abcdefghijklmnopqrstuvwxyz0123456789ab = 7;!".take 47 ++ "..." := by
  decide

/-- C8 (amended): the START rule of the partitioner fires only for the
literal function name `main`: at any cursor position whose line passes the
skip test and matches the main-signature pattern, a single-line START block
is emitted. -/
theorem claim_C8_start_main (lines : List String) (i bid : Nat)
    (h1 : i < lines.length)
    (h2 : (decide (pyStrip (lines.getD i "") = "") ||
      pyStarts (pyStrip (lines.getD i "")) "#") = false)
    (h3 : mainSig (lines.getD i "") = true) :
    carve lines i bid =
      create_block bid (i + 1) (i + 1) [lines.getD i ""] "START" ::
        carve lines (i + 1) (bid + 1) := by
  rw [carve_unfold, if_neg (show ¬ lines.length ≤ i by omega)]
  unfold carveStep
  simp only [h2, h3, Bool.false_eq_true, if_false, if_true]

theorem claim_C8_start_main_witness :
    carve ["int main() \x7b"] 0 0 =
      create_block 0 1 1 ["int main() \x7b"] "START" :: carve ["int main() \x7b"] 1 1 :=
  claim_C8_start_main ["int main() \x7b"] 0 0 (by decide) (by decide) (by decide)

/-- C8 counterexample: `int foo() \x7b` is a function signature by the
analyzer1s own detector, yet the partitioner emits an ACTIVITY block and no
START block for it, because the START rule requires the literal name `main`. -/
theorem claim_C8_counterexample :
    ruleFuncDef "int foo() \x7b" = true ∧
      (create_logical_blocks ["int foo() \x7b"]).map Block.node_type = ["ACTIVITY"] := by
  decide

/-- C10 (amended): when the carving cursor is at a line that survives the
skip test, matches none of the START, LOOP and XOR rules, and whose raw text
contains the substring `return`, an END block starting at that line is
emitted; lines absorbed by an earlier collector are never examined by this
rule. -/
theorem claim_C10_return_end (lines : List String) (i bid : Nat)
    (h1 : i < lines.length)
    (h2 : (decide (pyStrip (lines.getD i "") = "") ||
      pyStarts (pyStrip (lines.getD i "")) "#") = false)
    (h3 : mainSig (lines.getD i "") = false)
    (h4 : loopHdr (lines.getD i "") = false)
    (h5 : ifHdr (lines.getD i "") = false)
    (h6 : containsSub (lines.getD i "") "return" = true) :
    ∃ b rest, carve lines i bid = b :: rest ∧ b.node_type = "END" ∧
      b.start_line = i + 1 ∧ b.lines.getD 0 "" = lines.getD i "" := by
  rw [carve_unfold, if_neg (show ¬ lines.length ≤ i by omega)]
  unfold carveStep
  simp only [h2, h3, h4, h5, h6, Bool.false_eq_true, if_false, if_true]
  cases hr : retLook (lines.drop (i + 1)) with
  | some k => exact ⟨_, _, rfl, rfl, rfl, rfl⟩
  | none => exact ⟨_, _, rfl, rfl, rfl, rfl⟩

theorem claim_C10_return_end_witness :
    ∃ b rest, carve ["return 0;"] 0 0 = b :: rest ∧ b.node_type = "END" ∧
      b.start_line = 0 + 1 ∧ b.lines.getD 0 "" = ["return 0;"].getD 0 "" :=
  claim_C10_return_end ["return 0;"] 0 0 (by decide) (by decide) (by decide)
    (by decide) (by decide) (by decide)

/-- C10 counterexample: the raw text of line 2 contains `return` (inside the
identifier `returnValue`), yet no END block is carved: the generic-statement
rule at line 1 absorbs line 2 into an ACTIVITY block, so the cursor never
examines it. -/
theorem claim_C10_counterexample :
    containsSub "int b = returnValue;" "return" = true ∧
      (create_logical_blocks ["int a = 1;", "int b = returnValue;"]).map
        Block.node_type = ["ACTIVITY"] := by
  decide

/-- C1 (amended): on the five-line example the analysis yields variables
`a` defined at line 1, `b` at line 2, `sum` at line 4, dependency set of
`sum` equal to \x7ba, b\x7d, a line-3 record reading \x7ba, b\x7d with no
writes and operation label `Control flow: if statement`, one XOR block at
line 3 and one ACTIVITY block at line 4, and two conditional arcs out of the
XOR block: `If true` to the line-4 ACTIVITY block and `If false` to the
closing-brace ACTIVITY block. -/
theorem claim_C1_end_to_end :
    (analyze_variables ["int a = 10;", "int b = 5;", "if (a > b) \x7b",
        "    int sum = a + b;", "\x7d"]).varTable.map
        (fun p => (p.1, p.2.definitions.map Prod.fst)) =
      [("a", [1]), ("b", [2]), ("sum", [4])] ∧
    getDep (build_dependencies (analyze_variables ["int a = 10;", "int b = 5;",
        "if (a > b) \x7b", "    int sum = a + b;", "\x7d"]).line_analysis) "sum" =
      ["a", "b"] ∧
    ((analyze_variables ["int a = 10;", "int b = 5;", "if (a > b) \x7b",
        "    int sum = a + b;", "\x7d"]).line_analysis.find? (fun p => p.1 == 3)) =
      some (3, ⟨["a", "b"], [], "Control flow: if statement"⟩) ∧
    (create_logical_blocks ["int a = 10;", "int b = 5;", "if (a > b) \x7b",
        "    int sum = a + b;", "\x7d"]).map
        (fun b => (b.node_type, b.start_line, b.end_line)) =
      [("ACTIVITY", 1, 2), ("XOR", 3, 3), ("ACTIVITY", 4, 4), ("ACTIVITY", 5, 5)] ∧
    create_control_flow_arcs (create_logical_blocks ["int a = 10;", "int b = 5;",
        "if (a > b) \x7b", "    int sum = a + b;", "\x7d"]) =
      [⟨0, 1, "solid", "Sequential"⟩, ⟨1, 2, "dashed", "If true"⟩,
        ⟨1, 3, "dashed", "If false"⟩] := by
  decide

/-- C1 counterexample: the claim asserts exactly one conditional arc, but the
arc builder emits two dashed arcs for the XOR block of the five-line example
(an `If true` arc and an `If false` arc). -/
theorem claim_C1_counterexample :
    ((create_control_flow_arcs (create_logical_blocks ["int a = 10;", "int b = 5;",
        "if (a > b) \x7b", "    int sum = a + b;", "\x7d"])).filter
        (fun a => a.arc_type == "dashed")).length = 2 := by
  decide
